import Mathlib

/-!
Shallow embedding of the long-document evaluation pipeline of
`doc_assistant/document_processor.py` (class `DocumentProcessor`):
the chunker `split_text`, the markdown-table parser, the cross-chunk
aggregator and the summarization pass inside `process_long_document`.

Python strings are embedded as `List Char` (named `Str` below), so that
Python's `str.split`, `str.strip` and `str.join` can be modelled by
structurally recursive Lean functions.  The tokenizer (`tiktoken`) and the
evaluation oracle (`llm_service.get_evaluation`) are outside collaborators
and are taken as parameters: the tokenizer as a per-line token count
function, the oracle as the sequence of outcomes of its calls, indexed by
the order in which the pipeline issues them.
-/

namespace DocAssistant

/-- Python strings, embedded as lists of characters. -/
abbrev Str := List Char

/-- Embedding of Python `s.split(sep)` for a one-character separator `sep`:
splits at every occurrence of `sep`, keeping empty pieces, and always
returns at least one piece (`''.split(sep) == ['']`). -/
def pySplit (sep : Char) : Str → List Str
  | [] => [[]]
  | c :: rest =>
    match pySplit sep rest with
    | [] => [[]]
    | f :: fs => if c = sep then [] :: f :: fs else (c :: f) :: fs

/-- Embedding of Python `sep.join(pieces)` for a one-character separator. -/
def joinSep (sep : Char) : List Str → Str
  | [] => []
  | b :: bs => b ++ (bs.map (fun x => sep :: x)).flatten

/-- Embedding of Python `s.strip()`: remove leading and trailing whitespace. -/
def pyStrip (s : Str) : Str :=
  ((s.dropWhile Char.isWhitespace).reverse.dropWhile Char.isWhitespace).reverse

/-- One iteration state of the chunking loop of `split_text`
(`blocks`/`current`/`token_count` in the Python source); `tok` is the
token-count function `line ↦ len(enc.encode(line))` of the tokenizer.
Returns the emitted blocks, each a list of lines. -/
def splitLoop (tok : Str → Nat) (maxTokens : Nat) :
    List Str → List Str → Nat → List (List Str)
  | [], current, _ => if current = [] then [] else [current]
  | line :: rest, current, tokenCount =>
    if tokenCount + tok line > maxTokens ∧ current ≠ [] then
      current :: splitLoop tok maxTokens rest [line] (tok line)
    else
      splitLoop tok maxTokens rest (current ++ [line]) (tokenCount + tok line)

/-- The chunking loop of `split_text` run on a list of lines, starting from
an empty current block and zero token count. -/
def chunkLines (tok : Str → Nat) (maxTokens : Nat) (lines : List Str) :
    List (List Str) :=
  splitLoop tok maxTokens lines [] 0

/-- Embedding of `DocumentProcessor.split_text`: split the text on newlines,
run the chunking loop, and join each emitted block's lines with newlines. -/
def split_text (tok : Str → Nat) (maxTokens : Nat) (text : Str) : List Str :=
  (chunkLines tok maxTokens (pySplit '\n' text)).map (joinSep '\n')

/-- Numeric value of a list of decimal digit characters, most significant
first (the value Python's number parser assigns to a digit run). -/
def natOfDigits (s : Str) : Nat :=
  s.foldl (fun n c => 10 * n + (c.toNat - 48)) 0

/-- Split a numeric literal at its first `e`/`E`, returning the mantissa
text and, when present, the exponent text. -/
def splitExp : Str → Str × Option Str
  | [] => ([], none)
  | c :: rest =>
    if c = 'e' ∨ c = 'E' then ([], some rest)
    else
      let p := splitExp rest
      (c :: p.1, p.2)

/-- Parse an unsigned decimal mantissa: a digit run, optionally followed by
a point and another digit run, with at least one digit overall
(`float` accepts `7`, `8.5`, `1.` and `.5`; rejects `.` and ``). -/
def parseFrac (s : Str) : Option ℚ :=
  let intPart := s.takeWhile Char.isDigit
  let rest := s.dropWhile Char.isDigit
  match rest with
  | [] => if intPart = [] then none else some ((natOfDigits intPart : ℚ))
  | '.' :: frac =>
    if frac.all Char.isDigit ∧ (intPart ≠ [] ∨ frac ≠ []) then
      some ((natOfDigits intPart : ℚ) +
        (natOfDigits frac : ℚ) / ((10 : ℚ) ^ frac.length))
    else none
  | _ => none

/-- Parse an optionally signed integer exponent part. -/
def parseIntExp (s : Str) : Option ℤ :=
  match s with
  | '-' :: r =>
    if r ≠ [] ∧ r.all Char.isDigit then some (-(natOfDigits r : ℤ)) else none
  | '+' :: r =>
    if r ≠ [] ∧ r.all Char.isDigit then some ((natOfDigits r : ℤ)) else none
  | _ =>
    if s ≠ [] ∧ s.all Char.isDigit then some ((natOfDigits s : ℤ)) else none

/-- Parse an unsigned decimal literal with an optional exponent. -/
def pyFloatUnsigned (s : Str) : Option ℚ :=
  let p := splitExp s
  match p.2 with
  | none => parseFrac p.1
  | some es =>
    match parseFrac p.1, parseIntExp es with
    | some mv, some ev => some (mv * (10 : ℚ) ^ ev)
    | _, _ => none

/-- Embedding of Python `float(s)` on finite decimal literals (optionally
signed mantissa, optional decimal point, optional exponent), the score
format the pipeline's tables carry; `none` models the `ValueError` raised
on a non-numeric field.  (The non-finite spellings `inf`/`nan` and digit
underscores, which no score cell uses, are out of the embedding's scope.) -/
def pyFloat (s : Str) : Option ℚ :=
  match s with
  | '-' :: rest => (pyFloatUnsigned rest).map (fun q => -q)
  | '+' :: rest => pyFloatUnsigned rest
  | _ => pyFloatUnsigned s

/-- One parsed table row: criterion title, score, justification text and
indicators text (`cols[0] .. cols[3]` in the source). -/
structure Row where
  hallmark : Str
  score : ℚ
  justification : Str
  indicators : Str
deriving DecidableEq

/-- The table lines the parser keeps: lines containing a pipe whose
stripped form does not start with `|--` (the markdown separator row);
from `[line for line in table_md.split('\n') if '|' in line and not
line.strip().startswith('|--')]`. -/
def tableLines (table_md : Str) : List Str :=
  (pySplit '\n' table_md).filter
    (fun l => l.contains '|' && ! (List.isPrefixOf ['|', '-', '-'] (pyStrip l)))

/-- The fields of one table line:
`[c.strip() for c in row.split('|')[1:-1]]`. -/
def parseCols (row : Str) : List Str :=
  (((pySplit '|' row).drop 1).dropLast).map pyStrip

/-- The row loop of the aggregation stage on the non-header table lines:
rows with fewer than 4 fields are skipped, a row whose score field does not
parse as a float makes the whole chunk fail (`none` models the raised
`ValueError`, after which the pipeline returns nothing). -/
def parseRows : List Str → Option (List Row)
  | [] => some []
  | row :: rest =>
    let cols := parseCols row
    if 4 ≤ cols.length then
      match pyFloat (cols.getD 1 []) with
      | none => none
      | some sc =>
        match parseRows rest with
        | none => none
        | some rs =>
          some (⟨cols.getD 0 [], sc, cols.getD 2 [], cols.getD 3 []⟩ :: rs)
    else parseRows rest

/-- Parse one chunk's markdown table: keep the pipe lines, discard the
first surviving line as header, and run the row loop on the rest. -/
def parseTable (table_md : Str) : Option (List Row) :=
  match tableLines table_md with
  | [] => some []
  | _header :: rest => parseRows rest

/-- Embedding of appending to a `defaultdict(list)` entry: the first entry
with key `k` gets `v` appended; a missing key is inserted at the end
(Python dicts preserve insertion order). -/
def dAppend (k : Str) (v : α) : List (Str × List α) → List (Str × List α)
  | [] => [(k, [v])]
  | (q, vs) :: rest =>
    if q = k then (q, vs ++ [v]) :: rest else (q, vs) :: dAppend k v rest

/-- Reading a `defaultdict(list)` entry: the list stored at `k`, empty when
`k` is missing. -/
def dGet (k : Str) : List (Str × List α) → List α
  | [] => []
  | (q, vs) :: rest => if q = k then vs else dGet k rest

/-- Reading a plain dict: the value stored at `k`, if any. -/
def lookup? (k : Str) : List (Str × α) → Option α
  | [] => none
  | (q, v) :: rest => if q = k then some v else lookup? k rest

/-- The keys of a dict, in insertion order. -/
def dKeys (d : List (Str × α)) : List Str :=
  d.map Prod.fst

/-- The three accumulating dicts of the aggregation stage:
`hallmark_scores`, `hallmark_justifications`, `hallmark_indicators`. -/
structure AggState where
  scores : List (Str × List ℚ)
  justifications : List (Str × List Str)
  indicators : List (Str × List Str)
deriving DecidableEq

/-- Record one parsed row in the three dicts (the three `append` calls of
the source's row loop). -/
def addRow (st : AggState) (r : Row) : AggState where
  scores := dAppend r.hallmark r.score st.scores
  justifications := dAppend r.hallmark r.justification st.justifications
  indicators := dAppend r.hallmark r.indicators st.indicators

/-- Process one chunk's table: parse it and record every valid row, in
table order. -/
def addTable (st : AggState) (t : Str) : Option AggState :=
  (parseTable t).map (fun rows => rows.foldl addRow st)

/-- Process a list of chunk tables starting from a given state, failing as
soon as one chunk's table has a malformed score. -/
def aggFrom (st : AggState) : List Str → Option AggState
  | [] => some st
  | t :: ts =>
    match addTable st t with
    | none => none
    | some st2 => aggFrom st2 ts

/-- The aggregation stage over all chunk tables, from empty dicts. -/
def aggTables (tables : List Str) : Option AggState :=
  aggFrom ⟨[], [], []⟩ tables

/-- Embedding of Python `max(v)` on a list: `none` on the empty list
(where `max` would raise), otherwise the left fold of binary max over the
elements. -/
def pyMaxList : List ℚ → Option ℚ
  | [] => none
  | x :: xs => some (xs.foldl max x)

/-- Embedding of the dict comprehension taking Python `max` of each criterion's nonempty score list. -/
def final_scores (st : AggState) : List (Str × ℚ) :=
  st.scores.filterMap (fun p => (pyMaxList p.2).map (fun mv => (p.1, mv)))

/-- Embedding of the dict comprehension joining each criterion's justification list with spaces. -/
def final_justifications (st : AggState) : List (Str × Str) :=
  st.justifications.map (fun p => (p.1, joinSep ' ' p.2))

/-- Embedding of the dict comprehension joining each criterion's indicator list with spaces. -/
def final_indicators (st : AggState) : List (Str × Str) :=
  st.indicators.map (fun p => (p.1, joinSep ' ' p.2))

/-- The shapes of a successful oracle reply the pipeline distinguishes:
a dict carrying a `'table'` entry (whose value the pipeline reads), or any
other value (its `str()` rendering is all the pipeline uses of it). -/
inductive PyVal where
  | dictWithTable (table : Str)
  | other (s : Str)
deriving DecidableEq

/-- How the pipeline can fail: an exception raised by an oracle call
(`E` is the caller-visible error value), the `KeyError`/`TypeError` from
reading `result['table']` on a reply without one, or the `ValueError` from
`float` on a malformed score. -/
inductive PipeError (E : Type) where
  | oracle (e : E)
  | keyError
  | valueError
deriving DecidableEq

instance : DecidableEq (List (Str × Str) × List (Str × Str)) :=
  instDecidableEqProd

instance : DecidableEq (List (Str × ℚ) × List (Str × Str) × List (Str × Str)) :=
  instDecidableEqProd

instance {ε α : Type} [DecidableEq ε] [DecidableEq α] : DecidableEq (Except ε α) :=
  fun x y =>
    match x, y with
    | .error a, .error b =>
      if h : a = b then .isTrue (by rw [h]) else .isFalse (by simp [h])
    | .ok a, .ok b =>
      if h : a = b then .isTrue (by rw [h]) else .isFalse (by simp [h])
    | .error a, .ok b => .isFalse (by simp)
    | .ok a, .error b => .isFalse (by simp)

/-- Text taken from a summarization reply: the `'table'` entry when the
reply is a dict carrying one, otherwise the reply's `str()` form. -/
def extractText : PyVal → Str
  | .dictWithTable t => t
  | .other s => s

/-- The chunk-evaluation loop: one oracle call per block, in order (`k` is
the index of the next call).  The replies are only collected
(`chunk_results.append(result)`) — nothing inspects their shape here, the
`'table'` entry is read later in the aggregation loop — and a failed call
aborts the loop with that call's error. -/
def evalChunks (oracle : Nat → Except E PyVal) :
    Nat → List Str → Except E (List PyVal)
  | _, [] => .ok []
  | k, _block :: rest =>
    match oracle k with
    | .error e => .error e
    | .ok v =>
      match evalChunks oracle (k + 1) rest with
      | .error e => .error e
      | .ok vs => .ok (v :: vs)

/-- The aggregation loop over the collected chunk replies: for each reply
in order, read its `'table'` entry — `result['table']` on a reply without
one raises the `KeyError`/`TypeError` — then parse the table and record
its rows, a malformed score raising the `ValueError`. -/
def aggChunks {E : Type} (st : AggState) :
    List PyVal → Except (PipeError E) AggState
  | [] => .ok st
  | v :: rest =>
    match v with
    | .other _ => .error .keyError
    | .dictWithTable t =>
      match addTable st t with
      | none => .error .valueError
      | some st2 => aggChunks st2 rest

/-- The summarization loop over the entries of one of the two text dicts:
one oracle call per key, in dict order, replacing each entry's text with
the reply's extracted text; aborts on a failed call. -/
def summarizeAll (oracle : Nat → Except E PyVal) :
    Nat → List (Str × Str) → Except (PipeError E) (List (Str × Str))
  | _, [] => .ok []
  | k, (h, _txt) :: rest =>
    match oracle k with
    | .error e => .error (.oracle e)
    | .ok v =>
      match summarizeAll oracle (k + 1) rest with
      | .error e => .error e
      | .ok rs => .ok ((h, extractText v) :: rs)

/-- The summarization tail of `process_long_document`: starting at call
index `nB`, rewrite the joined justifications, then the joined indicators,
and pair them with the untouched `final_scores`. -/
def summStage (oracle : Nat → Except E PyVal) (nB : Nat) (st : AggState) :
    Except (PipeError E)
      (List (Str × ℚ) × List (Str × Str) × List (Str × Str)) :=
  match summarizeAll oracle nB (final_justifications st) with
  | .error e => .error e
  | .ok fj2 =>
    match summarizeAll oracle (nB + (final_justifications st).length)
        (final_indicators st) with
    | .error e => .error e
    | .ok fi2 => .ok (final_scores st, fj2, fi2)

/-- The aggregation-then-summarization tail of `process_long_document` on
the collected chunk replies. -/
def aggStage (oracle : Nat → Except E PyVal) (nB : Nat)
    (chunk_results : List PyVal) :
    Except (PipeError E)
      (List (Str × ℚ) × List (Str × Str) × List (Str × Str)) :=
  match aggChunks ⟨[], [], []⟩ chunk_results with
  | .error e => .error e
  | .ok st => summStage oracle nB st

/-- Embedding of `DocumentProcessor.process_long_document`: chunk the
document, make one oracle call per chunk collecting the raw replies, then
aggregate — reading each reply's `'table'` entry and parsing it, in reply
order — and finally summarize the joined justifications and the joined
indicators through further oracle calls.  The oracle is modelled by the
sequence of its call outcomes: calls `0 .. blocks.length - 1` are the
per-chunk evaluations, the following calls the justification then the
indicator summarizations, exactly the order the source issues them. -/
def process_long_document (oracle : Nat → Except E PyVal) (tok : Str → Nat)
    (maxTokens : Nat) (user_doc : Str) :
    Except (PipeError E)
      (List (Str × ℚ) × List (Str × Str) × List (Str × Str)) :=
  let blocks := split_text tok maxTokens user_doc
  match evalChunks oracle 0 blocks with
  | .error e => .error (.oracle e)
  | .ok chunk_results => aggStage oracle blocks.length chunk_results

/-- The split `pySplit` never returns the empty list of pieces. -/
theorem pySplit_ne_nil (sep : Char) (s : Str) : pySplit sep s ≠ [] := by
  cases s with
  | nil => simp [pySplit]
  | cons c rest =>
    simp only [pySplit]
    cases pySplit sep rest with
    | nil => simp
    | cons f fs =>
      by_cases h : c = sep <;> simp [h]

/-- Unfolding equation for `joinSep` on a nonempty list of pieces. -/
theorem joinSep_cons (sep : Char) (b : Str) (bs : List Str) :
    joinSep sep (b :: bs) = b ++ (bs.map (fun x => sep :: x)).flatten := rfl

/-- Splitting and rejoining on the same separator is the identity
(the counterpart of Python `sep.join(s.split(sep)) == s`). -/
theorem joinSep_pySplit (sep : Char) (s : Str) :
    joinSep sep (pySplit sep s) = s := by
  induction s with
  | nil => simp [pySplit, joinSep]
  | cons c rest ih =>
    simp only [pySplit]
    cases hrest : pySplit sep rest with
    | nil => exact absurd hrest (pySplit_ne_nil sep rest)
    | cons f fs =>
      rw [hrest] at ih
      show joinSep sep (if c = sep then [] :: f :: fs else (c :: f) :: fs) =
        c :: rest
      by_cases h : c = sep
      · subst h
        rw [if_pos rfl]
        calc joinSep c ([] :: f :: fs)
            = c :: (f ++ (fs.map (fun x => c :: x)).flatten) := by
              simp [joinSep_cons]
          _ = c :: joinSep c (f :: fs) := by rw [joinSep_cons]
          _ = c :: rest := by rw [ih]
      · rw [if_neg h]
        calc joinSep sep ((c :: f) :: fs)
            = c :: (f ++ (fs.map (fun x => sep :: x)).flatten) := by
              simp [joinSep_cons]
          _ = c :: joinSep sep (f :: fs) := by rw [joinSep_cons]
          _ = c :: rest := by rw [ih]

/-- The lines of the blocks emitted by the chunking loop are exactly the
pending current block followed by the remaining input lines. -/
theorem splitLoop_flatten (tok : Str → Nat) (m : Nat) (ls : List Str) :
    ∀ (cur : List Str) (t : Nat),
      (splitLoop tok m ls cur t).flatten = cur ++ ls := by
  induction ls with
  | nil =>
    intro cur t
    by_cases h : cur = [] <;> simp [splitLoop, h]
  | cons line rest ih =>
    intro cur t
    simp only [splitLoop]
    by_cases h : t + tok line > m ∧ cur ≠ []
    · simp only [if_pos h, List.flatten_cons, ih]
      simp
    · simp only [if_neg h, ih]
      simp

/-- Every block emitted by the chunking loop contains at least one line. -/
theorem splitLoop_ne_nil (tok : Str → Nat) (m : Nat) (ls : List Str) :
    ∀ (cur : List Str) (t : Nat) (b : List Str),
      b ∈ splitLoop tok m ls cur t → b ≠ [] := by
  induction ls with
  | nil =>
    intro cur t b hb
    by_cases h : cur = []
    · simp [splitLoop, h] at hb
    · simp [splitLoop, h] at hb
      simpa [hb] using h
  | cons line rest ih =>
    intro cur t b hb
    simp only [splitLoop] at hb
    by_cases h : t + tok line > m ∧ cur ≠ []
    · rw [if_pos h] at hb
      rcases List.mem_cons.mp hb with hb | hb
      · simpa [hb] using h.2
      · exact ih _ _ _ hb
    · rw [if_neg h] at hb
      exact ih _ _ _ hb

/-- Budget invariant of the chunking loop: if the pending token count is
the sum of the pending lines' counts and respects the budget whenever the
pending block has two or more lines, then every emitted block of two or
more lines has line-token-sum at most the budget. -/
theorem splitLoop_budget (tok : Str → Nat) (m : Nat) (ls : List Str) :
    ∀ (cur : List Str) (t : Nat),
      t = (cur.map tok).sum →
      (2 ≤ cur.length → t ≤ m) →
      ∀ b ∈ splitLoop tok m ls cur t, 2 ≤ b.length → (b.map tok).sum ≤ m := by
  induction ls with
  | nil =>
    intro cur t ht hc b hb hlen
    by_cases h : cur = []
    · simp [splitLoop, h] at hb
    · simp [splitLoop, h] at hb
      subst hb
      exact ht ▸ hc hlen
  | cons line rest ih =>
    intro cur t ht hc b hb hlen
    simp only [splitLoop] at hb
    by_cases h : t + tok line > m ∧ cur ≠ []
    · rw [if_pos h] at hb
      rcases List.mem_cons.mp hb with hb | hb
      · subst hb
        exact ht ▸ hc hlen
      · refine ih [line] (tok line) (by simp) (by simp) b hb hlen
    · rw [if_neg h] at hb
      by_cases hcur : cur = []
      · subst hcur
        refine ih [line] (0 + tok line) (by simp) (by simp) b ?_ hlen
        · simpa [ht] using hb
      · have hle : t + tok line ≤ m := by
          rcases not_and_or.mp h with h1 | h2
          · omega
          · exact absurd hcur (by simpa using h2)
        refine ih (cur ++ [line]) (t + tok line) ?_ (fun _ => hle) b hb hlen
        simp [ht]

/-- Appending a value under key `k` extends exactly the list stored at `k`
(whether or not `k` already has an entry). -/
theorem dGet_dAppend (k h : Str) (v : α) (d : List (Str × List α)) :
    dGet h (dAppend k v d) = if k = h then dGet h d ++ [v] else dGet h d := by
  induction d with
  | nil =>
    by_cases hk : k = h <;> simp [dAppend, dGet, hk]
  | cons p rest ih =>
    obtain ⟨q, vs⟩ := p
    by_cases hq : q = k
    · subst hq
      by_cases hk : q = h <;> simp [dAppend, dGet, hk, ih]
    · simp only [dAppend, if_neg hq]
      by_cases hh : q = h
      · subst hh
        have : ¬ k = q := fun hkq => hq hkq.symm
        simp [dGet, this]
      · simp [dGet, hh, ih]

/-- The keys after a `dAppend` are the old keys plus `k`. -/
theorem mem_dKeys_dAppend (k h : Str) (v : α) (d : List (Str × List α)) :
    h ∈ dKeys (dAppend k v d) ↔ h = k ∨ h ∈ dKeys d := by
  induction d with
  | nil => simp [dAppend, dKeys, eq_comm]
  | cons p rest ih =>
    obtain ⟨q, vs⟩ := p
    by_cases hq : q = k
    · subst hq
      simp [dAppend, dKeys]
    · simp [dAppend, dKeys, hq] at ih ⊢
      rw [ih]
      tauto

/-- The update `dAppend` preserves key distinctness. -/
theorem dKeys_dAppend_nodup (k : Str) (v : α) (d : List (Str × List α))
    (hd : (dKeys d).Nodup) : (dKeys (dAppend k v d)).Nodup := by
  induction d with
  | nil => simp [dAppend, dKeys]
  | cons p rest ih =>
    obtain ⟨q, vs⟩ := p
    simp only [dKeys, List.map_cons, List.nodup_cons] at hd
    by_cases hq : q = k
    · subst hq
      simpa [dAppend, dKeys, List.nodup_cons] using hd
    · simp only [dAppend, if_neg hq, dKeys, List.map_cons, List.nodup_cons]
      refine ⟨fun hmem => ?_, ih hd.2⟩
      rcases (mem_dKeys_dAppend k q v rest).mp hmem with h1 | h1
      · exact hq h1
      · exact hd.1 h1

/-- Unfolding equation for `lookup?` on the empty dict. -/
theorem lookup?_nil {α : Type} (k : Str) : lookup? k ([] : List (Str × α)) = none :=
  rfl

/-- Unfolding equation for `lookup?` on a nonempty dict. -/
theorem lookup?_cons {α : Type} (k q : Str) (v : α) (rest : List (Str × α)) :
    lookup? k ((q, v) :: rest) = if q = k then some v else lookup? k rest :=
  rfl

/-- A key is missing from a dict exactly when `lookup?` returns nothing. -/
theorem lookup?_eq_none_iff {α : Type} [Nonempty α] (k : Str) (d : List (Str × α)) :
    lookup? k d = none ↔ k ∉ dKeys d := by
  induction d with
  | nil => simp [lookup?_nil, dKeys]
  | cons p rest ih =>
    obtain ⟨q, v⟩ := p
    by_cases hq : q = k
    · subst hq
      simp [lookup?_cons, dKeys]
    · simp [lookup?_cons, dKeys, hq, ih, fun h : k = q => hq h.symm]
      exact fun _ h1 => hq h1.symm

/-- Folding `addRow` acts componentwise on the three dicts: scores. -/
theorem foldl_addRow_scores (rows : List Row) :
    ∀ st : AggState, (rows.foldl addRow st).scores =
      rows.foldl (fun d r => dAppend r.hallmark r.score d) st.scores := by
  induction rows with
  | nil => intro st; rfl
  | cons r rows ih => intro st; exact ih (addRow st r)

/-- Folding `addRow` acts componentwise on the three dicts: justifications. -/
theorem foldl_addRow_justifications (rows : List Row) :
    ∀ st : AggState, (rows.foldl addRow st).justifications =
      rows.foldl (fun d r => dAppend r.hallmark r.justification d)
        st.justifications := by
  induction rows with
  | nil => intro st; rfl
  | cons r rows ih => intro st; exact ih (addRow st r)

/-- Folding `addRow` acts componentwise on the three dicts: indicators. -/
theorem foldl_addRow_indicators (rows : List Row) :
    ∀ st : AggState, (rows.foldl addRow st).indicators =
      rows.foldl (fun d r => dAppend r.hallmark r.indicators d)
        st.indicators := by
  induction rows with
  | nil => intro st; rfl
  | cons r rows ih => intro st; exact ih (addRow st r)

/-- After folding a row sequence into a dict with `dAppend`, the list at
key `h` is the old list extended by the values of the rows keyed `h`, in
row order. -/
theorem dGet_foldl_dAppend {α : Type} (key : Row → Str) (val : Row → α)
    (rows : List Row) (h : Str) :
    ∀ d0 : List (Str × List α),
      dGet h (rows.foldl (fun d r => dAppend (key r) (val r) d) d0) =
        dGet h d0 ++ (rows.filter (fun r => key r = h)).map val := by
  induction rows with
  | nil => intro d0; simp
  | cons r rows ih =>
    intro d0
    simp only [List.foldl_cons, ih, dGet_dAppend, List.filter_cons]
    by_cases hk : key r = h
    · simp [hk]
    · simp [hk]

/-- A key appears after the fold exactly when it was already present or
some folded row is keyed by it. -/
theorem mem_dKeys_foldl_dAppend {α : Type} (key : Row → Str) (val : Row → α)
    (rows : List Row) (h : Str) :
    ∀ d0 : List (Str × List α),
      h ∈ dKeys (rows.foldl (fun d r => dAppend (key r) (val r) d) d0) ↔
        h ∈ dKeys d0 ∨ ∃ r ∈ rows, key r = h := by
  induction rows with
  | nil => intro d0; simp
  | cons r rows ih =>
    intro d0
    simp only [List.foldl_cons, ih, mem_dKeys_dAppend, List.mem_cons]
    constructor
    · rintro (⟨h1 | h1⟩ | ⟨r2, h2, h3⟩)
      · exact Or.inr ⟨r, Or.inl rfl, h1.symm⟩
      · exact Or.inl h1
      · exact Or.inr ⟨r2, Or.inr h2, h3⟩
    · rintro (h1 | ⟨r2, h2 | h2, h3⟩)
      · exact Or.inl (Or.inr h1)
      · exact Or.inl (Or.inl (h2 ▸ h3.symm))
      · exact Or.inr ⟨r2, h2, h3⟩

/-- The fold preserves key distinctness. -/
theorem dKeys_foldl_dAppend_nodup {α : Type} (key : Row → Str) (val : Row → α)
    (rows : List Row) :
    ∀ d0 : List (Str × List α), (dKeys d0).Nodup →
      (dKeys (rows.foldl (fun d r => dAppend (key r) (val r) d) d0)).Nodup := by
  induction rows with
  | nil => intro d0 hd; exact hd
  | cons r rows ih =>
    intro d0 hd
    exact ih _ (dKeys_dAppend_nodup _ _ _ hd)

/-- Unfolding equation for `aggFrom` on a nonempty table list. -/
theorem aggFrom_cons (st : AggState) (t : Str) (ts : List Str) :
    aggFrom st (t :: ts) =
      match addTable st t with
      | none => none
      | some st2 => aggFrom st2 ts := rfl

/-- A successful parse of every table yields a successful aggregation whose
state folds all rows in chunk-then-row order. -/
theorem aggFrom_of_parses (tables : List Str) :
    ∀ (rowss : List (List Row)) (st : AggState),
      tables.map parseTable = rowss.map some →
      aggFrom st tables = some (rowss.flatten.foldl addRow st) := by
  induction tables with
  | nil =>
    intro rowss st hmap
    have : rowss = [] := by
      cases rowss with
      | nil => rfl
      | cons a b => simp at hmap
    subst this
    rfl
  | cons t ts ih =>
    intro rowss st hmap
    cases rowss with
    | nil => simp at hmap
    | cons rows rowss2 =>
      simp only [List.map_cons, List.cons.injEq] at hmap
      have hadd : addTable st t = some (rows.foldl addRow st) := by
        rw [addTable, hmap.1]
        rfl
      rw [aggFrom_cons, hadd]
      show aggFrom (rows.foldl addRow st) ts = _
      rw [ih rowss2 (rows.foldl addRow st) hmap.2]
      simp [List.flatten_cons, List.foldl_append]

/-- A successful aggregation means every table parsed. -/
theorem aggFrom_parses (tables : List Str) :
    ∀ (st st2 : AggState), aggFrom st tables = some st2 →
      ∃ rowss : List (List Row), tables.map parseTable = rowss.map some := by
  induction tables with
  | nil => intro st st2 _; exact ⟨[], rfl⟩
  | cons t ts ih =>
    intro st st2 hagg
    rcases hpt : parseTable t with _ | rows
    · have hadd : addTable st t = none := by
        rw [addTable, hpt]
        rfl
      rw [aggFrom_cons, hadd] at hagg
      exact Option.noConfusion hagg
    · have hadd : addTable st t = some (rows.foldl addRow st) := by
        rw [addTable, hpt]
        rfl
      rw [aggFrom_cons, hadd] at hagg
      have hagg2 : aggFrom (rows.foldl addRow st) ts = some st2 := hagg
      rcases ih _ _ hagg2 with ⟨rowss2, h2⟩
      refine ⟨rows :: rowss2, ?_⟩
      simp [hpt, h2]

/-- Left folds of binary max agree across permutations. -/
theorem foldl_max_perm {l1 l2 : List ℚ} (p : l1.Perm l2) :
    ∀ a : ℚ, l1.foldl max a = l2.foldl max a := by
  induction p with
  | nil => intro a; rfl
  | cons x _ ih =>
    intro a
    simp only [List.foldl_cons]
    exact ih (max a x)
  | swap x y l =>
    intro a
    simp only [List.foldl_cons]
    rw [sup_right_comm]
  | trans _ _ ih1 ih2 =>
    intro a
    exact (ih1 a).trans (ih2 a)

/-- The Python-style list max is permutation-invariant. -/
theorem pyMaxList_perm {l1 l2 : List ℚ} (p : l1.Perm l2) :
    pyMaxList l1 = pyMaxList l2 := by
  induction p with
  | nil => rfl
  | cons x p2 _ =>
    simp only [pyMaxList]
    rw [foldl_max_perm p2]
  | swap x y l =>
    simp only [pyMaxList, List.foldl_cons]
    rw [max_comm y x]
  | trans _ _ ih1 ih2 => exact ih1.trans ih2

/-- The seed of a max fold never exceeds the fold's result. -/
theorem le_foldl_max (l : List ℚ) : ∀ a : ℚ, a ≤ l.foldl max a := by
  induction l with
  | nil => intro a; exact le_refl a
  | cons x l ih =>
    intro a
    simp only [List.foldl_cons]
    exact le_trans (le_max_left a x) (ih (max a x))

/-- Every element of the list is bounded by the max fold's result. -/
theorem mem_le_foldl_max (l : List ℚ) :
    ∀ (a x : ℚ), x ∈ l → x ≤ l.foldl max a := by
  induction l with
  | nil => intro a x hx; simp at hx
  | cons y l ih =>
    intro a x hx
    simp only [List.foldl_cons]
    rcases List.mem_cons.mp hx with h1 | h1
    · subst h1
      exact le_trans (le_max_right a x) (le_foldl_max l (max a x))
    · exact ih (max a y) x h1

/-- The max fold's result is the seed or one of the elements. -/
theorem foldl_max_mem (l : List ℚ) :
    ∀ a : ℚ, l.foldl max a = a ∨ l.foldl max a ∈ l := by
  induction l with
  | nil => intro a; exact Or.inl rfl
  | cons x l ih =>
    intro a
    simp only [List.foldl_cons]
    rcases ih (max a x) with h1 | h1
    · rcases max_choice a x with h2 | h2
      · exact Or.inl (h1.trans h2)
      · exact Or.inr (List.mem_cons.mpr (Or.inl (h1.trans h2)))
    · exact Or.inr (List.mem_cons.mpr (Or.inr h1))

/-- The max `pyMaxList` returns an element of the list. -/
theorem pyMaxList_mem {l : List ℚ} {v : ℚ} (h : pyMaxList l = some v) :
    v ∈ l := by
  cases l with
  | nil => exact Option.noConfusion h
  | cons x xs =>
    simp only [pyMaxList, Option.some.injEq] at h
    subst h
    rcases foldl_max_mem xs x with h1 | h1
    · exact List.mem_cons.mpr (Or.inl h1)
    · exact List.mem_cons.mpr (Or.inr h1)

/-- The max `pyMaxList` returns an upper bound of the list. -/
theorem pyMaxList_le {l : List ℚ} {v : ℚ} (h : pyMaxList l = some v) :
    ∀ x ∈ l, x ≤ v := by
  cases l with
  | nil => intro x hx; simp at hx
  | cons y xs =>
    simp only [pyMaxList, Option.some.injEq] at h
    subst h
    intro x hx
    rcases List.mem_cons.mp hx with h1 | h1
    · subst h1
      exact le_foldl_max xs x
    · exact mem_le_foldl_max xs y x h1

/-- The max `pyMaxList` succeeds exactly on nonempty lists. -/
theorem pyMaxList_isSome {l : List ℚ} (h : l ≠ []) :
    ∃ v, pyMaxList l = some v := by
  cases l with
  | nil => exact absurd rfl h
  | cons x xs => exact ⟨xs.foldl max x, rfl⟩

/-- Stripping `some` from a permutation of mapped lists. -/
theorem perm_of_map_some {l1 l2 : List (List Row)}
    (p : (l1.map some).Perm (l2.map some)) : l1.Perm l2 := by
  rw [List.perm_iff_count]
  intro rs
  rw [List.perm_iff_count] at p
  have h1 := p (some rs)
  rwa [List.count_map_of_injective l1 some (Option.some_injective _),
    List.count_map_of_injective l2 some (Option.some_injective _)] at h1

/-- Unfolding equation for `dGet` on a nonempty dict. -/
theorem dGet_cons {α : Type} (k q : Str) (vs : List α)
    (rest : List (Str × List α)) :
    dGet k ((q, vs) :: rest) = if q = k then vs else dGet k rest := rfl

/-- Unfolding equation for `dKeys` on a nonempty dict. -/
theorem dKeys_cons {α : Type} (q : Str) (v : α) (rest : List (Str × α)) :
    dKeys ((q, v) :: rest) = q :: dKeys rest := rfl

/-- One `filterMap` step for the `final_scores` shape: kept entry. -/
theorem filterMap_pairs_cons_some (g : List ℚ → Option ℚ) (q : Str)
    (vs : List ℚ) (rest : List (Str × List ℚ)) (mv : ℚ) (hgv : g vs = some mv) :
    List.filterMap (fun p => (g p.2).map (fun x => (p.1, x))) ((q, vs) :: rest) =
      (q, mv) :: List.filterMap (fun p => (g p.2).map (fun x => (p.1, x))) rest := by
  simp [List.filterMap_cons, hgv]

/-- One `filterMap` step for the `final_scores` shape: dropped entry. -/
theorem filterMap_pairs_cons_none (g : List ℚ → Option ℚ) (q : Str)
    (vs : List ℚ) (rest : List (Str × List ℚ)) (hgv : g vs = none) :
    List.filterMap (fun p => (g p.2).map (fun x => (p.1, x))) ((q, vs) :: rest) =
      List.filterMap (fun p => (g p.2).map (fun x => (p.1, x))) rest := by
  simp [List.filterMap_cons, hgv]

/-- When a key is absent, the `final_scores`-style filterMap holds nothing
for it. -/
theorem lookup?_filterMap_none (g : List ℚ → Option ℚ)
    (d : List (Str × List ℚ)) (h : Str) (hh : h ∉ dKeys d) :
    lookup? h (d.filterMap (fun p => (g p.2).map (fun mv => (p.1, mv)))) =
      none := by
  induction d with
  | nil => rfl
  | cons p rest ih =>
    obtain ⟨q, vs⟩ := p
    rw [dKeys_cons, List.mem_cons] at hh
    push_neg at hh
    cases hgv : g vs with
    | none =>
      rw [filterMap_pairs_cons_none g q vs rest hgv]
      exact ih hh.2
    | some mv =>
      rw [filterMap_pairs_cons_some g q vs rest mv hgv]
      rw [lookup?_cons, if_neg (fun hq => hh.1 hq.symm)]
      exact ih hh.2

/-- On a dict with distinct keys, looking a key up in `final_scores` is
taking the Python max of the list stored at that key. -/
theorem lookup?_filterMap_pyMax (d : List (Str × List ℚ)) (h : Str)
    (hnd : (dKeys d).Nodup) :
    lookup? h (d.filterMap (fun p => (pyMaxList p.2).map (fun mv => (p.1, mv)))) =
      pyMaxList (dGet h d) := by
  induction d with
  | nil => rfl
  | cons p rest ih =>
    obtain ⟨q, vs⟩ := p
    rw [dKeys_cons, List.nodup_cons] at hnd
    by_cases hq : q = h
    · subst hq
      rw [dGet_cons, if_pos rfl]
      cases hvs : pyMaxList vs with
      | none =>
        rw [filterMap_pairs_cons_none pyMaxList q vs rest hvs]
        rw [lookup?_filterMap_none pyMaxList rest q hnd.1]
      | some mv =>
        rw [filterMap_pairs_cons_some pyMaxList q vs rest mv hvs]
        rw [lookup?_cons, if_pos rfl]
    · rw [dGet_cons, if_neg hq]
      cases hvs : pyMaxList vs with
      | none =>
        rw [filterMap_pairs_cons_none pyMaxList q vs rest hvs]
        exact ih hnd.2
      | some mv =>
        rw [filterMap_pairs_cons_some pyMaxList q vs rest mv hvs]
        rw [lookup?_cons, if_neg hq]
        exact ih hnd.2

/-- Looking a key up after mapping a join over the dict's values. -/
theorem lookup?_map_join (f : List Str → Str) (d : List (Str × List Str))
    (h : Str) :
    lookup? h (d.map (fun p => (p.1, f p.2))) =
      if h ∈ dKeys d then some (f (dGet h d)) else none := by
  induction d with
  | nil => simp [dKeys, lookup?_nil]
  | cons p rest ih =>
    obtain ⟨q, vs⟩ := p
    simp only [List.map_cons]
    rw [lookup?_cons]
    by_cases hq : q = h
    · subst hq
      rw [if_pos rfl, dGet_cons, if_pos rfl,
        if_pos (by rw [dKeys_cons]; exact List.mem_cons_self q (dKeys rest))]
    · rw [if_neg hq, ih, dGet_cons, if_neg hq]
      by_cases hm : h ∈ dKeys rest
      · have hm2 : h ∈ dKeys ((q, vs) :: rest) := by
          rw [dKeys_cons]
          exact List.mem_cons.mpr (Or.inr hm)
        rw [if_pos hm, if_pos hm2]
      · have hm2 : h ∉ dKeys ((q, vs) :: rest) := by
          rw [dKeys_cons, List.mem_cons]
          rintro (h1 | h1)
          · exact hq h1.symm
          · exact hm h1
        rw [if_neg hm, if_neg hm2]

/-- Unfolding equation for `evalChunks` on a nonempty block list. -/
theorem evalChunks_cons {E : Type} (oracle : Nat → Except E PyVal) (k : Nat)
    (b : Str) (rest : List Str) :
    evalChunks oracle k (b :: rest) =
      match oracle k with
      | .error e => .error e
      | .ok v =>
        match evalChunks oracle (k + 1) rest with
        | .error e => .error e
        | .ok vs => .ok (v :: vs) := rfl

/-- The chunk loop only reads the oracle at the calls it issues. -/
theorem evalChunks_congr {E : Type} (oracle oracle2 : Nat → Except E PyVal)
    (blocks : List Str) :
    ∀ k, (∀ i, i < blocks.length → oracle (k + i) = oracle2 (k + i)) →
      evalChunks oracle k blocks = evalChunks oracle2 k blocks := by
  induction blocks with
  | nil => intro k _; rfl
  | cons b rest ih =>
    intro k hag
    have h0 : oracle k = oracle2 k := by
      have := hag 0 (by simp)
      simpa using this
    rw [evalChunks_cons, evalChunks_cons, h0,
      ih (k + 1) (fun i hi => by
        have h2 := hag (i + 1) (by simpa using Nat.succ_lt_succ hi)
        have h3 : k + 1 + i = k + (i + 1) := by omega
        rw [h3]
        exact h2)]

/-- A successful chunk loop saw a successful reply at every call it
issued. -/
theorem evalChunks_ok_calls {E : Type} (oracle : Nat → Except E PyVal)
    (blocks : List Str) :
    ∀ k vs, evalChunks oracle k blocks = .ok vs →
      ∀ i, i < blocks.length → ∃ v, oracle (k + i) = .ok v := by
  induction blocks with
  | nil => intro k vs _ i hi; simp at hi
  | cons b rest ih =>
    intro k vs hok i hi
    rw [evalChunks_cons] at hok
    rcases hor : oracle k with e | v
    · rw [hor] at hok
      exact Except.noConfusion hok
    · rw [hor] at hok
      cases i with
      | zero => exact ⟨v, by simpa using hor⟩
      | succ i2 =>
        rcases hrec : evalChunks oracle (k + 1) rest with e2 | vs2
        · rw [hrec] at hok
          exact Except.noConfusion hok
        · have h3 := ih (k + 1) vs2 hrec i2
            (by simpa using Nat.lt_of_succ_lt_succ hi)
          have h4 : k + 1 + i2 = k + (i2 + 1) := by omega
          rw [h4] at h3
          exact h3

/-- An oracle failure at a call the chunk loop reaches — every earlier
call having returned some reply, of any shape — aborts the loop with that
error. -/
theorem evalChunks_err {E : Type} (oracle : Nat → Except E PyVal)
    (blocks : List Str) (e : E) :
    ∀ k j, j < blocks.length →
      (∀ i, i < j → ∃ v, oracle (k + i) = .ok v) →
      oracle (k + j) = .error e →
      evalChunks oracle k blocks = .error e := by
  induction blocks with
  | nil => intro k j hj _ _; simp at hj
  | cons b rest ih =>
    intro k j hj hpre herr
    rw [evalChunks_cons]
    cases j with
    | zero =>
      simp only [Nat.add_zero] at herr
      rw [herr]
    | succ j2 =>
      rcases hpre 0 (Nat.succ_pos j2) with ⟨v, hv⟩
      simp only [Nat.add_zero] at hv
      rw [hv]
      have hrec : evalChunks oracle (k + 1) rest = .error e := by
        refine ih (k + 1) j2 (by simpa using Nat.lt_of_succ_lt_succ hj)
          (fun i hi => ?_) ?_
        · have h3 := hpre (i + 1) (Nat.succ_lt_succ hi)
          have h4 : k + 1 + i = k + (i + 1) := by omega
          rw [h4]
          exact h3
        · have h4 : k + 1 + j2 = k + (j2 + 1) := by omega
          rw [h4]
          exact herr
      rw [hrec]

/-- Aggregating table-shaped replies is aggregating their tables: the
reply loop succeeds exactly when the table-level fold does. -/
theorem aggChunks_eq_aggFrom {E : Type} (tables : List Str) :
    ∀ st : AggState,
      aggChunks (E := E) st (tables.map PyVal.dictWithTable) =
        match aggFrom st tables with
        | none => .error .valueError
        | some st2 => .ok st2 := by
  induction tables with
  | nil => intro st; rfl
  | cons t ts ih =>
    intro st
    rw [List.map_cons]
    show (match addTable st t with
      | none => Except.error PipeError.valueError
      | some st2 => aggChunks st2 (ts.map PyVal.dictWithTable)) = _
    rw [aggFrom_cons]
    rcases ha : addTable st t with _ | st2
    · rfl
    · exact ih st2

/-- A successful reply-aggregation means every reply carried a table and
the table-level aggregation succeeded on them. -/
theorem aggChunks_ok_inv {E : Type} (chunk_results : List PyVal) :
    ∀ (st st2 : AggState),
      aggChunks (E := E) st chunk_results = .ok st2 →
      ∃ tables : List Str,
        chunk_results = tables.map PyVal.dictWithTable ∧
        aggFrom st tables = some st2 := by
  induction chunk_results with
  | nil =>
    intro st st2 hok
    have h2 : st = st2 := by
      have h3 : Except.ok (ε := PipeError E) st = .ok st2 := hok
      simpa using h3
    exact ⟨[], rfl, by rw [h2]; rfl⟩
  | cons v rest ih =>
    intro st st2 hok
    cases v with
    | other s => exact Except.noConfusion hok
    | dictWithTable t =>
      rcases ha : addTable st t with _ | st3
      · rw [show aggChunks (E := E) st (PyVal.dictWithTable t :: rest) =
          (match addTable st t with
            | none => Except.error PipeError.valueError
            | some st3 => aggChunks st3 rest) from rfl, ha] at hok
        exact Except.noConfusion hok
      · rw [show aggChunks (E := E) st (PyVal.dictWithTable t :: rest) =
          (match addTable st t with
            | none => Except.error PipeError.valueError
            | some st3 => aggChunks st3 rest) from rfl, ha] at hok
        rcases ih st3 st2 hok with ⟨tables2, hcr, hagg⟩
        refine ⟨t :: tables2, by rw [List.map_cons, hcr], ?_⟩
        rw [aggFrom_cons, ha]
        exact hagg

/-- Unfolding equation for `summarizeAll` on a nonempty dict. -/
theorem summarizeAll_cons {E : Type} (oracle : Nat → Except E PyVal) (k : Nat)
    (h : Str) (txt : Str) (rest : List (Str × Str)) :
    summarizeAll oracle k ((h, txt) :: rest) =
      match oracle k with
      | .error e => .error (.oracle e)
      | .ok v =>
        match summarizeAll oracle (k + 1) rest with
        | .error e => .error e
        | .ok rs => .ok ((h, extractText v) :: rs) := rfl

/-- A successful summarization pass keeps the keys, in order. -/
theorem summarizeAll_keys {E : Type} (oracle : Nat → Except E PyVal)
    (l : List (Str × Str)) :
    ∀ k l2, summarizeAll oracle k l = .ok l2 →
      l2.map Prod.fst = l.map Prod.fst := by
  induction l with
  | nil =>
    intro k l2 hok
    have : l2 = [] := by
      have h2 : Except.ok (ε := PipeError E) [] = .ok l2 := hok
      simpa using h2
    simp [this]
  | cons p rest ih =>
    obtain ⟨h, txt⟩ := p
    intro k l2 hok
    rw [summarizeAll_cons] at hok
    rcases hor : oracle k with e | v
    · rw [hor] at hok
      exact Except.noConfusion hok
    · rw [hor] at hok
      rcases hrec : summarizeAll oracle (k + 1) rest with e2 | rs
      · rw [hrec] at hok
        exact Except.noConfusion hok
      · rw [hrec] at hok
        have : (h, extractText v) :: rs = l2 := by simpa using hok
        subst this
        simp [ih (k + 1) rs hrec]

/-- If every call the summarization pass issues succeeds, it succeeds. -/
theorem summarizeAll_ok_of {E : Type} (oracle : Nat → Except E PyVal)
    (l : List (Str × Str)) :
    ∀ k, (∀ i, i < l.length → ∃ v, oracle (k + i) = .ok v) →
      ∃ l2, summarizeAll oracle k l = .ok l2 := by
  induction l with
  | nil => intro k _; exact ⟨[], rfl⟩
  | cons p rest ih =>
    obtain ⟨h, txt⟩ := p
    intro k hcalls
    rcases hcalls 0 (by simp) with ⟨v, hv⟩
    simp only [Nat.add_zero] at hv
    rcases ih (k + 1) (fun i hi => by
      have h3 := hcalls (i + 1) (by simpa using Nat.succ_lt_succ hi)
      have h4 : k + 1 + i = k + (i + 1) := by omega
      rw [h4]
      exact h3) with ⟨rs, hrs⟩
    exact ⟨(h, extractText v) :: rs, by rw [summarizeAll_cons, hv, hrs]⟩

/-- An oracle failure at a call the summarization pass reaches aborts it
with that error. -/
theorem summarizeAll_err {E : Type} (oracle : Nat → Except E PyVal)
    (l : List (Str × Str)) (e : E) :
    ∀ k j, j < l.length →
      (∀ i, i < j → ∃ v, oracle (k + i) = .ok v) →
      oracle (k + j) = .error e →
      summarizeAll oracle k l = .error (.oracle e) := by
  induction l with
  | nil => intro k j hj _ _; simp at hj
  | cons p rest ih =>
    obtain ⟨h, txt⟩ := p
    intro k j hj hpre herr
    rw [summarizeAll_cons]
    cases j with
    | zero =>
      simp only [Nat.add_zero] at herr
      rw [herr]
    | succ j2 =>
      rcases hpre 0 (Nat.succ_pos j2) with ⟨v, hv⟩
      simp only [Nat.add_zero] at hv
      rw [hv]
      have hrec : summarizeAll oracle (k + 1) rest = .error (.oracle e) := by
        refine ih (k + 1) j2 (by simpa using Nat.lt_of_succ_lt_succ hj)
          (fun i hi => ?_) ?_
        · have h3 := hpre (i + 1) (Nat.succ_lt_succ hi)
          have h4 : k + 1 + i = k + (i + 1) := by omega
          rw [h4]
          exact h3
        · have h4 : k + 1 + j2 = k + (j2 + 1) := by omega
          rw [h4]
          exact herr
      rw [hrec]

/-- The pipeline `process_long_document` as a match on its chunk stage. -/
theorem process_eq {E : Type} (oracle : Nat → Except E PyVal)
    (tok : Str → Nat) (m : Nat) (doc : Str) :
    process_long_document oracle tok m doc =
      match evalChunks oracle 0 (split_text tok m doc) with
      | .error e => .error (.oracle e)
      | .ok chunk_results =>
        aggStage oracle (split_text tok m doc).length chunk_results := rfl

/-- The stage `aggStage` as a match on the reply-aggregation result. -/
theorem aggStage_eq {E : Type} (oracle : Nat → Except E PyVal) (nB : Nat)
    (chunk_results : List PyVal) :
    aggStage oracle nB chunk_results =
      match aggChunks (E := E) ⟨[], [], []⟩ chunk_results with
      | .error e => .error e
      | .ok st => summStage oracle nB st := rfl

/-- The stage `summStage` as a match on its two summarization passes. -/
theorem summStage_eq {E : Type} (oracle : Nat → Except E PyVal) (nB : Nat)
    (st : AggState) :
    summStage oracle nB st =
      match summarizeAll oracle nB (final_justifications st) with
      | .error e => .error e
      | .ok fj2 =>
        match summarizeAll oracle (nB + (final_justifications st).length)
            (final_indicators st) with
        | .error e => .error e
        | .ok fi2 => .ok (final_scores st, fj2, fi2) := rfl

/-- A chunk-stage failure is the pipeline's result, wrapped as the
oracle's error. -/
theorem process_of_evalChunks_error {E : Type} (oracle : Nat → Except E PyVal)
    (tok : Str → Nat) (m : Nat) (doc : Str) (e : E)
    (h : evalChunks oracle 0 (split_text tok m doc) = .error e) :
    process_long_document oracle tok m doc = .error (.oracle e) := by
  rw [process_eq, h]

/-- A failure of the reply-aggregation loop is the pipeline's result. -/
theorem process_of_agg_error {E : Type} (oracle : Nat → Except E PyVal)
    (tok : Str → Nat) (m : Nat) (doc : Str) (chunk_results : List PyVal)
    (err : PipeError E)
    (h1 : evalChunks oracle 0 (split_text tok m doc) = .ok chunk_results)
    (h2 : aggChunks (E := E) ⟨[], [], []⟩ chunk_results = .error err) :
    process_long_document oracle tok m doc = .error err := by
  rw [process_eq, h1]
  show aggStage oracle (split_text tok m doc).length chunk_results = _
  rw [aggStage_eq, h2]

/-- When every reply carries a table and one table has a malformed score,
the pipeline raises the float ValueError. -/
theorem process_of_agg_none {E : Type} (oracle : Nat → Except E PyVal)
    (tok : Str → Nat) (m : Nat) (doc : Str) (tables : List Str)
    (h1 : evalChunks oracle 0 (split_text tok m doc) =
      .ok (tables.map PyVal.dictWithTable))
    (h2 : aggTables tables = none) :
    process_long_document oracle tok m doc = .error .valueError := by
  refine process_of_agg_error oracle tok m doc
    (tables.map PyVal.dictWithTable) .valueError h1 ?_
  rw [aggChunks_eq_aggFrom tables ⟨[], [], []⟩]
  have h3 : aggFrom ⟨[], [], []⟩ tables = none := h2
  rw [h3]

/-- A failure of the justification-summarization stage is the pipeline's
result. -/
theorem process_of_sum1_error {E : Type} (oracle : Nat → Except E PyVal)
    (tok : Str → Nat) (m : Nat) (doc : Str) (chunk_results : List PyVal)
    (st : AggState) (err : PipeError E)
    (h1 : evalChunks oracle 0 (split_text tok m doc) = .ok chunk_results)
    (h2 : aggChunks (E := E) ⟨[], [], []⟩ chunk_results = .ok st)
    (h3 : summarizeAll oracle (split_text tok m doc).length
      (final_justifications st) = .error err) :
    process_long_document oracle tok m doc = .error err := by
  rw [process_eq, h1]
  show aggStage oracle (split_text tok m doc).length chunk_results = _
  rw [aggStage_eq, h2]
  show summStage oracle (split_text tok m doc).length st = _
  rw [summStage_eq, h3]

/-- A failure of the indicator-summarization stage is the pipeline's
result. -/
theorem process_of_sum2_error {E : Type} (oracle : Nat → Except E PyVal)
    (tok : Str → Nat) (m : Nat) (doc : Str) (chunk_results : List PyVal)
    (st : AggState) (fj2 : List (Str × Str)) (err : PipeError E)
    (h1 : evalChunks oracle 0 (split_text tok m doc) = .ok chunk_results)
    (h2 : aggChunks (E := E) ⟨[], [], []⟩ chunk_results = .ok st)
    (h3 : summarizeAll oracle (split_text tok m doc).length
      (final_justifications st) = .ok fj2)
    (h4 : summarizeAll oracle
      ((split_text tok m doc).length + (final_justifications st).length)
      (final_indicators st) = .error err) :
    process_long_document oracle tok m doc = .error err := by
  rw [process_eq, h1]
  show aggStage oracle (split_text tok m doc).length chunk_results = _
  rw [aggStage_eq, h2]
  show summStage oracle (split_text tok m doc).length st = _
  rw [summStage_eq, h3]
  show (match summarizeAll oracle
      ((split_text tok m doc).length + (final_justifications st).length)
      (final_indicators st) with
    | Except.error e => Except.error e
    | Except.ok fi2 =>
      Except.ok (final_scores st, fj2, fi2)) = Except.error err
  rw [h4]

/-- Inverting a successful pipeline run into its stage results. -/
theorem process_ok_inv {E : Type} (oracle : Nat → Except E PyVal)
    (tok : Str → Nat) (m : Nat) (doc : Str)
    (s : List (Str × ℚ)) (j i : List (Str × Str))
    (h : process_long_document oracle tok m doc = .ok (s, j, i)) :
    ∃ chunk_results st,
      evalChunks oracle 0 (split_text tok m doc) = .ok chunk_results ∧
      aggChunks (E := E) ⟨[], [], []⟩ chunk_results = .ok st ∧
      s = final_scores st ∧
      summarizeAll oracle (split_text tok m doc).length
        (final_justifications st) = .ok j ∧
      summarizeAll oracle
        ((split_text tok m doc).length + (final_justifications st).length)
        (final_indicators st) = .ok i := by
  rw [process_eq] at h
  rcases h1 : evalChunks oracle 0 (split_text tok m doc) with e | chunk_results
  · rw [h1] at h
    exact Except.noConfusion h
  · rw [h1] at h
    have h2a : aggStage oracle (split_text tok m doc).length chunk_results =
        .ok (s, j, i) := h
    rw [aggStage_eq] at h2a
    rcases h2 : aggChunks (E := E) ⟨[], [], []⟩ chunk_results with e | st
    · rw [h2] at h2a
      exact Except.noConfusion h2a
    · rw [h2] at h2a
      have h3a : summStage oracle (split_text tok m doc).length st =
          .ok (s, j, i) := h2a
      rw [summStage_eq] at h3a
      rcases h3 : summarizeAll oracle (split_text tok m doc).length
          (final_justifications st) with e | fj2
      · rw [h3] at h3a
        exact Except.noConfusion h3a
      · rw [h3] at h3a
        have h4a : (match summarizeAll oracle
            ((split_text tok m doc).length + (final_justifications st).length)
            (final_indicators st) with
          | Except.error e => Except.error e
          | Except.ok fi2 =>
            Except.ok (final_scores st, fj2, fi2)) = Except.ok (s, j, i) := h3a
        rcases h4 : summarizeAll oracle
            ((split_text tok m doc).length + (final_justifications st).length)
            (final_indicators st) with e | fi2
        · rw [h4] at h4a
          exact Except.noConfusion h4a
        · rw [h4] at h4a
          have h5 : (final_scores st, fj2, fi2) = (s, j, i) := by
            simpa using h4a
          have h6 : final_scores st = s := congrArg Prod.fst h5
          have h7 : fj2 = j := congrArg (fun p => p.2.1) h5
          have h8 : fi2 = i := congrArg (fun p => p.2.2) h5
          exact ⟨chunk_results, st, rfl, h2, h6.symm, h7 ▸ h3, h8 ▸ h4⟩

/-- The chunking loop emits at least one block when it has pending or
remaining lines. -/
theorem splitLoop_ne_nil_out (tok : Str → Nat) (m : Nat) (ls : List Str) :
    ∀ (cur : List Str) (t : Nat), ls ≠ [] ∨ cur ≠ [] →
      splitLoop tok m ls cur t ≠ [] := by
  induction ls with
  | nil =>
    intro cur t hne
    rcases hne with h | h
    · exact absurd rfl h
    · simp [splitLoop, h]
  | cons line rest ih =>
    intro cur t _
    simp only [splitLoop]
    by_cases h : t + tok line > m ∧ cur ≠ []
    · simp [if_pos h]
    · rw [if_neg h]
      exact ih (cur ++ [line]) (t + tok line) (Or.inr (by simp))

/-- Prefixing every piece with the separator and flattening is the
separator-led join. -/
theorem flatten_map_sepCons (sep : Char) (bs : List Str) (hbs : bs ≠ []) :
    (bs.map (fun x => sep :: x)).flatten = sep :: joinSep sep bs := by
  cases bs with
  | nil => exact absurd rfl hbs
  | cons b bs2 =>
    simp only [List.map_cons, List.flatten_cons, joinSep_cons]
    rfl

/-- Join of an appended line list, when the first part is nonempty. -/
theorem joinSep_append (sep : Char) (xs ys : List Str) (hxs : xs ≠ []) :
    joinSep sep (xs ++ ys) =
      joinSep sep xs ++ (ys.map (fun x => sep :: x)).flatten := by
  cases xs with
  | nil => exact absurd rfl hxs
  | cons b xs2 =>
    rw [List.cons_append, joinSep_cons, joinSep_cons, List.map_append,
      List.flatten_append, List.append_assoc]

/-- Joining the per-block joins equals joining all the lines, when every
block is nonempty. -/
theorem joinSep_map_flatten (sep : Char) (bs : List (List Str))
    (hbs : ∀ b ∈ bs, b ≠ []) :
    joinSep sep (bs.map (joinSep sep)) = joinSep sep bs.flatten := by
  induction bs with
  | nil => rfl
  | cons b bs2 ih =>
    have hb : b ≠ [] := hbs b (List.mem_cons_self b bs2)
    have hrest : ∀ c ∈ bs2, c ≠ [] :=
      fun c hc => hbs c (List.mem_cons.mpr (Or.inr hc))
    rw [List.map_cons, joinSep_cons, List.flatten_cons,
      joinSep_append sep b bs2.flatten hb]
    congr 1
    cases hbs2 : bs2 with
    | nil => simp
    | cons c bs3 =>
      rw [hbs2] at ih hrest
      have hc : c ≠ [] := hrest c (by simp)
      have hflat : (c :: bs3).flatten ≠ [] := by
        cases hcc : c with
        | nil => exact absurd hcc hc
        | cons ch cs => simp
      rw [flatten_map_sepCons sep ((c :: bs3).map (joinSep sep)) (by simp),
        flatten_map_sepCons sep (c :: bs3).flatten hflat, ih hrest]

/-- The split `pySplit` walks over a separator-free prefix by extending
the first piece. -/
theorem pySplit_append_of_not_mem (sep : Char) (f : Str) (hf : sep ∉ f)
    (s : Str) :
    pySplit sep (f ++ s) =
      match pySplit sep s with
      | [] => [[]]
      | g :: gs => (f ++ g) :: gs := by
  induction f with
  | nil =>
    cases hs : pySplit sep s with
    | nil => exact absurd hs (pySplit_ne_nil sep s)
    | cons g gs => simp [hs]
  | cons c f2 ih =>
    have hc : c ≠ sep := fun he => hf (he ▸ List.mem_cons_self c f2)
    have hf2 : sep ∉ f2 := fun hm => hf (List.mem_cons.mpr (Or.inr hm))
    rw [List.cons_append]
    show (match pySplit sep (f2 ++ s) with
      | [] => [[]]
      | f :: fs => if c = sep then [] :: f :: fs else (c :: f) :: fs) = _
    rw [ih hf2]
    cases hs : pySplit sep s with
    | nil => exact absurd hs (pySplit_ne_nil sep s)
    | cons g gs => simp [hc]

/-- Splitting a string that starts with the separator peels off one empty
piece. -/
theorem pySplit_sep_cons (sep : Char) (X : Str) :
    pySplit sep (sep :: X) = [] :: pySplit sep X := by
  show (match pySplit sep X with
    | [] => [[]]
    | f :: fs => if sep = sep then [] :: f :: fs else (sep :: f) :: fs) = _
  cases hX : pySplit sep X with
  | nil => exact absurd hX (pySplit_ne_nil sep X)
  | cons a as => simp

/-- Splitting a pipe-framed row body: the fields come back followed by the
empty piece the trailing pipe produces. -/
theorem pySplit_joinSep_frame (sep : Char) (fs : List Str) (hfs : fs ≠ [])
    (hf : ∀ f ∈ fs, sep ∉ f) :
    pySplit sep (joinSep sep fs ++ [sep]) = fs ++ [[]] := by
  induction fs with
  | nil => exact absurd rfl hfs
  | cons f fs2 ih =>
    have hf1 : sep ∉ f := hf f (List.mem_cons_self f fs2)
    cases hfs2 : fs2 with
    | nil =>
      rw [joinSep_cons]
      simp only [List.map_nil, List.flatten_nil, List.append_nil]
      rw [pySplit_append_of_not_mem sep f hf1 [sep],
        show ([sep] : Str) = sep :: [] from rfl, pySplit_sep_cons]
      simp [pySplit]
    | cons g fs3 =>
      rw [hfs2] at ih hf
      rw [joinSep_cons, flatten_map_sepCons sep (g :: fs3) (by simp),
        List.append_assoc, List.cons_append,
        pySplit_append_of_not_mem sep f hf1
          (sep :: (joinSep sep (g :: fs3) ++ [sep])),
        pySplit_sep_cons,
        ih (by simp) (fun x hx => hf x (List.mem_cons.mpr (Or.inr hx)))]
      simp

/-- Unfolding equation for `parseRows` on a nonempty line list. -/
theorem parseRows_cons (row : Str) (rest : List Str) :
    parseRows (row :: rest) =
      if 4 ≤ (parseCols row).length then
        match pyFloat ((parseCols row).getD 1 []) with
        | none => none
        | some sc =>
          match parseRows rest with
          | none => none
          | some rs =>
            some (⟨(parseCols row).getD 0 [], sc, (parseCols row).getD 2 [],
              (parseCols row).getD 3 []⟩ :: rs)
      else parseRows rest := rfl

/-- A row with fewer than 4 fields is skipped: the row loop's result is as
if the row were absent. -/
theorem parseRows_drop_short (row : Str) (h : (parseCols row).length < 4)
    (pre post : List Str) :
    parseRows (pre ++ row :: post) = parseRows (pre ++ post) := by
  induction pre with
  | nil =>
    simp only [List.nil_append]
    rw [parseRows_cons, if_neg (by omega)]
  | cons p pre2 ih =>
    rw [List.cons_append, List.cons_append, parseRows_cons, parseRows_cons, ih]

/-- A row with at least 4 fields and a non-numeric score field fails the
whole row loop. -/
theorem parseRows_none_of_badscore (row : Str)
    (h4 : 4 ≤ (parseCols row).length)
    (hbad : pyFloat ((parseCols row).getD 1 []) = none)
    (pre post : List Str) :
    parseRows (pre ++ row :: post) = none := by
  induction pre with
  | nil =>
    simp only [List.nil_append]
    rw [parseRows_cons, if_pos h4, hbad]
  | cons p pre2 ih =>
    rw [List.cons_append, parseRows_cons, ih]
    by_cases hp : 4 ≤ (parseCols p).length
    · rw [if_pos hp]
      cases pyFloat ((parseCols p).getD 1 []) <;> simp
    · rw [if_neg hp]

/-- One unparsable table anywhere makes the whole aggregation fail. -/
theorem aggFrom_none_of_mem (tables : List Str) :
    ∀ (st : AggState) (t : Str), t ∈ tables → parseTable t = none →
      aggFrom st tables = none := by
  induction tables with
  | nil => intro st t ht _; simp at ht
  | cons t2 ts ih =>
    intro st t ht hpt
    rcases List.mem_cons.mp ht with h1 | h1
    · subst h1
      have hadd : addTable st t = none := by
        rw [addTable, hpt]
        rfl
      rw [aggFrom_cons, hadd]
    · rcases ha : addTable st t2 with _ | st2
      · rw [aggFrom_cons, ha]
      · rw [aggFrom_cons, ha]
        show aggFrom st2 ts = none
        exact ih st2 t h1 hpt

/-- The aggregation `aggTables` is `aggFrom` from the empty dicts. -/
theorem aggTables_eq (tables : List Str) :
    aggTables tables = aggFrom ⟨[], [], []⟩ tables := rfl

/-- A successful aggregation is the fold of all parsed rows, in
chunk-then-row order, from the empty dicts. -/
theorem aggTables_char (tables : List Str) (st : AggState)
    (h : aggTables tables = some st) :
    ∃ rowss : List (List Row), tables.map parseTable = rowss.map some ∧
      st = rowss.flatten.foldl addRow ⟨[], [], []⟩ := by
  rcases aggFrom_parses tables _ _ h with ⟨rowss, hmap⟩
  have h2 := aggFrom_of_parses tables rowss ⟨[], [], []⟩ hmap
  rw [aggTables_eq, h2] at h
  exact ⟨rowss, hmap, by injection h with h3; exact h3.symm⟩

/-- The chunker always returns at least one block. -/
theorem split_text_length_pos (tok : Str → Nat) (m : Nat) (text : Str) :
    1 ≤ (split_text tok m text).length := by
  rw [split_text, List.length_map]
  have h := splitLoop_ne_nil_out tok m (pySplit '\n' text) [] 0
    (Or.inl (pySplit_ne_nil '\n' text))
  rw [chunkLines]
  exact List.length_pos.mpr h

/-- Chunking the empty document yields one block: the empty string. -/
theorem split_text_nil (tok : Str → Nat) (m : Nat) :
    split_text tok m [] = [[]] := by
  have h1 : pySplit '\n' [] = [[]] := rfl
  rw [split_text, h1, chunkLines]
  show List.map (joinSep '\n')
    (if (0 : Nat) + tok [] > m ∧ ([] : List Str) ≠ [] then
      [] :: splitLoop tok m [] [[]] (tok [])
    else splitLoop tok m [] ([] ++ [[]]) (0 + tok [])) = [[]]
  rw [if_neg (by simp)]
  rfl

/-- C1: for every document text and every token budget, the Chunker's
blocks are a lossless partition of the document's line sequence — every
line lands in exactly one block, in order, unsplit — and joining the
emitted blocks with newlines reconstructs the original document exactly. -/
theorem claim_C1_chunker_lossless (tok : Str → Nat) (m : Nat) (text : Str) :
    (chunkLines tok m (pySplit '\n' text)).flatten = pySplit '\n' text ∧
    joinSep '\n' (split_text tok m text) = text := by
  have hflat : (chunkLines tok m (pySplit '\n' text)).flatten =
      pySplit '\n' text := by
    simpa [chunkLines] using splitLoop_flatten tok m (pySplit '\n' text) [] 0
  refine ⟨hflat, ?_⟩
  rw [split_text, joinSep_map_flatten '\n' (chunkLines tok m (pySplit '\n' text))
    (fun b hb => splitLoop_ne_nil tok m (pySplit '\n' text) [] 0 b hb)]
  rw [chunkLines] at hflat ⊢
  rw [hflat]
  exact joinSep_pySplit '\n' text

/-- C2: every block the Chunker emits that holds more than one line has a
token count (the sum of its lines' token counts) at most the budget, and a
line whose own token count exceeds the budget sits alone in its block. -/
theorem claim_C2_chunker_budget (tok : Str → Nat) (m : Nat) (text : Str) :
    ∀ b ∈ chunkLines tok m (pySplit '\n' text),
      (1 < b.length → (b.map tok).sum ≤ m) ∧
      (∀ l ∈ b, m < tok l → b = [l]) := by
  intro b hb
  have h1 := splitLoop_budget tok m (pySplit '\n' text) [] 0 rfl
    (fun h2 => absurd h2 (by simp)) b hb
  constructor
  · intro hlen
    exact h1 (by omega)
  · intro l hl hgt
    have hne := splitLoop_ne_nil tok m (pySplit '\n' text) [] 0 b hb
    by_cases h2 : 2 ≤ b.length
    · exfalso
      have hsum := h1 h2
      have hmem : tok l ∈ b.map tok := List.mem_map_of_mem tok hl
      have hle : tok l ≤ (b.map tok).sum :=
        List.single_le_sum (fun x _ => Nat.zero_le x) (tok l) hmem
      omega
    · have hlen1 : b.length = 1 := by
        have := List.length_pos.mpr hne
        omega
      rcases List.length_eq_one.mp hlen1 with ⟨a, ha⟩
      rw [ha] at hl ⊢
      simp only [List.mem_singleton] at hl
      rw [hl]

/-- Witness for C2 on a concrete document: with per-character token counts
and budget 2, the two-line block of `"a\nb\nccc"` fits the budget, and the
oversized line `"ccc"` is alone in its block. -/
theorem claim_C2_chunker_budget_witness :
    ((["a".toList, "b".toList].map
      (fun l : Str => l.length)).sum ≤ 2) ∧
    ["ccc".toList] = ["ccc".toList] := by
  constructor
  · exact (claim_C2_chunker_budget (fun l => l.length) 2 "a\nb\nccc".toList
      ["a".toList, "b".toList] (by decide)).1 (by decide)
  · exact (claim_C2_chunker_budget (fun l => l.length) 2 "a\nb\nccc".toList
      ["ccc".toList] (by decide)).2 "ccc".toList (by decide) (by decide)

/-- C10: the Chunker returns at least one block for every input, the empty
document yields exactly one block (the empty string), and the pipeline
always issues its first oracle call — its outcome on any document is the
outcome of call 0 when that call fails. -/
theorem claim_C10_nonempty_chunking :
    (∀ (tok : Str → Nat) (m : Nat) (text : Str),
      1 ≤ (split_text tok m text).length) ∧
    (∀ (tok : Str → Nat) (m : Nat), split_text tok m [] = [[]]) ∧
    (∀ (E : Type) (oracle : Nat → Except E PyVal) (tok : Str → Nat) (m : Nat)
      (text : Str) (e : E), oracle 0 = .error e →
      process_long_document oracle tok m text = .error (.oracle e)) := by
  refine ⟨split_text_length_pos, split_text_nil, ?_⟩
  intro E oracle tok m text e h0
  apply process_of_evalChunks_error
  exact evalChunks_err oracle (split_text tok m text) e 0 0
    (split_text_length_pos tok m text)
    (fun i hi => absurd hi (Nat.not_lt_zero i)) (by simpa using h0)

/-- Witness for C10: one failing call on the empty document propagates. -/
theorem claim_C10_nonempty_chunking_witness :
    process_long_document (fun _ => .error (5 : Nat))
      (fun l : Str => l.length) 7 [] = .error (.oracle 5) :=
  claim_C10_nonempty_chunking.2.2 Nat (fun _ => .error 5)
    (fun l => l.length) 7 [] 5 rfl

/-- Table used by the C5 witness: a well-formed header and one row whose
score field is not numeric. -/
def c5Table : Str := "| H | S | J | I |\n| X | abc | j | i |".toList

/-- Oracle used by the C5 witness: every call returns a dict whose table
is `c5Table`. -/
def c5Oracle : Nat → Except Nat PyVal :=
  fun _ => .ok (.dictWithTable c5Table)

/-- C5: a non-header row yielding fewer than 4 fields is silently dropped
(the row loop's result is as if the row were absent, no error), while a
row with at least 4 fields whose score does not parse as a decimal makes
the row loop fail, and a chunk whose table fails aborts the whole pipeline
with the ValueError — no partial result. -/
theorem claim_C5_row_validity :
    (∀ (row : Str) (pre post : List Str), (parseCols row).length < 4 →
      parseRows (pre ++ row :: post) = parseRows (pre ++ post)) ∧
    (∀ (row : Str) (pre post : List Str), 4 ≤ (parseCols row).length →
      pyFloat ((parseCols row).getD 1 []) = none →
      parseRows (pre ++ row :: post) = none) ∧
    (∀ (E : Type) (oracle : Nat → Except E PyVal) (tok : Str → Nat) (m : Nat)
      (doc : Str) (tables : List Str) (t : Str),
      evalChunks oracle 0 (split_text tok m doc) =
        .ok (tables.map PyVal.dictWithTable) →
      t ∈ tables → parseTable t = none →
      process_long_document oracle tok m doc = .error .valueError) := by
  refine ⟨fun row pre post h => parseRows_drop_short row h pre post,
    fun row pre post h4 hbad => parseRows_none_of_badscore row h4 hbad pre post,
    ?_⟩
  intro E oracle tok m doc tables t h1 ht hpt
  have h2 : aggTables tables = none := by
    rw [aggTables_eq]
    exact aggFrom_none_of_mem tables ⟨[], [], []⟩ t ht hpt
  exact process_of_agg_none oracle tok m doc tables h1 h2

/-- Witness for C5: a 2-field row is dropped, a non-numeric score row
fails the row loop, and a pipeline run over such a table ends in the
ValueError. -/
theorem claim_C5_row_validity_witness :
    parseRows ["| a | b |".toList] = parseRows [] ∧
    parseRows ["| X | abc | j | i |".toList] = none ∧
    process_long_document c5Oracle (fun l : Str => l.length) 9 [] =
      .error .valueError := by
  refine ⟨?_, ?_, ?_⟩
  · exact claim_C5_row_validity.1 "| a | b |".toList [] [] (by decide)
  · exact claim_C5_row_validity.2.1 "| X | abc | j | i |".toList [] []
      (by decide) (by decide)
  · exact claim_C5_row_validity.2.2 Nat c5Oracle (fun l => l.length) 9 []
      [c5Table] c5Table (by decide) (by decide) (by decide)

/-- C6: a table line framed with pipes splits into its pipe-separated
fields with the framing empties dropped and each field stripped; in
particular `"| X | 7 | reason | |"` yields exactly the 4 fields
`X`, `7`, `reason` and the empty string, and is accepted as a row with
empty indicators rather than dropped. -/
theorem claim_C6_framed_row :
    (∀ fs : List Str, fs ≠ [] → (∀ f ∈ fs, '|' ∉ f) →
      parseCols ('|' :: (joinSep '|' fs ++ ['|'])) = fs.map pyStrip) ∧
    parseCols "| X | 7 | reason | |".toList =
      ["X".toList, "7".toList, "reason".toList, []] ∧
    parseRows ["| X | 7 | reason | |".toList] =
      some [⟨"X".toList, 7, "reason".toList, []⟩] := by
  refine ⟨?_, by decide, by decide⟩
  intro fs hfs hf
  rw [parseCols, pySplit_sep_cons '|' (joinSep '|' fs ++ ['|']),
    pySplit_joinSep_frame '|' fs hfs hf]
  simp

/-- Witness for C6: the general framed-row field extraction evaluated at
the scenario row's fields. -/
theorem claim_C6_framed_row_witness :
    parseCols ('|' :: (joinSep '|'
        [" X ".toList, " 7 ".toList, " reason ".toList, " ".toList] ++
      ['|'])) =
      [" X ".toList, " 7 ".toList, " reason ".toList, " ".toList].map
        pyStrip :=
  claim_C6_framed_row.1
    [" X ".toList, " 7 ".toList, " reason ".toList, " ".toList]
    (by decide) (by decide)

/-- Mapping `some` over row lists is injective. -/
theorem map_some_inj {l1 l2 : List (List Row)}
    (h : l1.map some = l2.map some) : l1 = l2 := by
  induction l1 generalizing l2 with
  | nil =>
    cases l2 with
    | nil => rfl
    | cons c l2b => simp at h
  | cons a l1b ih =>
    cases l2 with
    | nil => simp at h
    | cons c l2b =>
      simp only [List.map_cons, List.cons.injEq, Option.some.injEq] at h
      rw [h.1, ih h.2]

/-- The keys of the two text dicts after aggregation are the criteria of
the folded rows (justifications component). -/
theorem dKeys_final_justifications (st : AggState) :
    dKeys (final_justifications st) = dKeys st.justifications := by
  simp [final_justifications, dKeys, List.map_map, Function.comp]

/-- The keys of the two text dicts after aggregation are the criteria of
the folded rows (indicators component). -/
theorem dKeys_final_indicators (st : AggState) :
    dKeys (final_indicators st) = dKeys st.indicators := by
  simp [final_indicators, dKeys, List.map_map, Function.comp]

/-- C7: a criterion named by no valid parsed row is absent from all three
returned mappings — never present with a placeholder — and a criterion
named by at least one valid row is present in the returned score
mapping. -/
theorem claim_C7_absent_criteria {E : Type} (oracle : Nat → Except E PyVal)
    (tok : Str → Nat) (m : Nat) (doc : Str) (s : List (Str × ℚ))
    (j i : List (Str × Str)) (tables : List Str) (rowss : List (List Row))
    (hrun : process_long_document oracle tok m doc = .ok (s, j, i))
    (htab : evalChunks oracle 0 (split_text tok m doc) =
      .ok (tables.map PyVal.dictWithTable))
    (hrows : tables.map parseTable = rowss.map some) (h : Str) :
    ((∀ r ∈ rowss.flatten, r.hallmark ≠ h) →
      lookup? h s = none ∧ lookup? h j = none ∧ lookup? h i = none) ∧
    ((∃ r ∈ rowss.flatten, r.hallmark = h) → ∃ v, lookup? h s = some v) := by
  rcases process_ok_inv oracle tok m doc s j i hrun with
    ⟨chunk_results, st, h1, h2, hs, h3, h4⟩
  have hcr : chunk_results = tables.map PyVal.dictWithTable := by
    rw [htab] at h1
    injection h1 with h5
    exact h5.symm
  subst hcr
  have h2b : aggTables tables = some st := by
    rw [aggChunks_eq_aggFrom (E := E) tables ⟨[], [], []⟩] at h2
    rcases ha : aggFrom ⟨[], [], []⟩ tables with _ | st2
    · rw [ha] at h2
      exact Except.noConfusion h2
    · rw [ha] at h2
      have h7 : st2 = st := by simpa using h2
      rw [aggTables_eq, ha, h7]
  rcases aggTables_char tables st h2b with ⟨rowss2, hmap2, hstdef⟩
  have hrw : rowss = rowss2 :=
    map_some_inj (hrows.symm.trans hmap2)
  subst hrw
  have hscores : st.scores =
      rowss.flatten.foldl (fun d r => dAppend r.hallmark r.score d) [] := by
    rw [hstdef]
    exact foldl_addRow_scores rowss.flatten ⟨[], [], []⟩
  have hjusts : st.justifications =
      rowss.flatten.foldl
        (fun d r => dAppend r.hallmark r.justification d) [] := by
    rw [hstdef]
    exact foldl_addRow_justifications rowss.flatten ⟨[], [], []⟩
  have hinds : st.indicators =
      rowss.flatten.foldl
        (fun d r => dAppend r.hallmark r.indicators d) [] := by
    rw [hstdef]
    exact foldl_addRow_indicators rowss.flatten ⟨[], [], []⟩
  have hndScores : (dKeys st.scores).Nodup := by
    rw [hscores]
    exact dKeys_foldl_dAppend_nodup Row.hallmark Row.score rowss.flatten []
      (by simp [dKeys])
  have hlookupS : lookup? h s = pyMaxList (dGet h st.scores) := by
    rw [hs]
    exact lookup?_filterMap_pyMax st.scores h hndScores
  have hdget : dGet h st.scores =
      (rowss.flatten.filter (fun r => r.hallmark = h)).map Row.score := by
    rw [hscores]
    simpa using
      dGet_foldl_dAppend Row.hallmark Row.score rowss.flatten h []
  constructor
  · intro hab
    refine ⟨?_, ?_, ?_⟩
    · rw [hlookupS, hdget]
      have hfil : rowss.flatten.filter (fun r => r.hallmark = h) = [] := by
        rw [List.filter_eq_nil_iff]
        intro r hr
        simpa using hab r hr
      rw [hfil]
      rfl
    · rw [lookup?_eq_none_iff]
      intro hmem
      have hkeysj : dKeys j = dKeys (final_justifications st) := by
        have := summarizeAll_keys oracle (final_justifications st) _ j h3
        simpa [dKeys] using this
      rw [hkeysj, dKeys_final_justifications, hjusts] at hmem
      have := (mem_dKeys_foldl_dAppend Row.hallmark Row.justification
        rowss.flatten h []).mp hmem
      rcases this with hin | ⟨r, hr, hrh⟩
      · simp [dKeys] at hin
      · exact hab r hr hrh
    · rw [lookup?_eq_none_iff]
      intro hmem
      have hkeysi : dKeys i = dKeys (final_indicators st) := by
        have := summarizeAll_keys oracle (final_indicators st) _ i h4
        simpa [dKeys] using this
      rw [hkeysi, dKeys_final_indicators, hinds] at hmem
      have := (mem_dKeys_foldl_dAppend Row.hallmark Row.indicators
        rowss.flatten h []).mp hmem
      rcases this with hin | ⟨r, hr, hrh⟩
      · simp [dKeys] at hin
      · exact hab r hr hrh
  · rintro ⟨r, hr, hrh⟩
    rw [hlookupS, hdget]
    have hne : rowss.flatten.filter (fun r => r.hallmark = h) ≠ [] := by
      intro hnil
      have hmem2 : r ∈ rowss.flatten.filter (fun r => r.hallmark = h) :=
        List.mem_filter.mpr ⟨hr, by simpa using hrh⟩
      rw [hnil] at hmem2
      simp at hmem2
    have hne2 : (rowss.flatten.filter
        (fun r => r.hallmark = h)).map Row.score ≠ [] := by
      simpa using hne
    exact pyMaxList_isSome hne2

/-- C8: the summarization pass touches only the text fields — the returned
score mapping is the aggregated one computed before summarization, and it
is unchanged under any change of the oracle's summarization replies (two
oracles agreeing on the chunk-evaluation calls produce, on success, the
same scores). -/
theorem claim_C8_scores_frame {E : Type} (oracle oracle2 : Nat → Except E PyVal)
    (tok : Str → Nat) (m : Nat) (doc : Str) (s s2 : List (Str × ℚ))
    (j i j2 i2 : List (Str × Str))
    (hagree : ∀ k, k < (split_text tok m doc).length → oracle k = oracle2 k)
    (h1 : process_long_document oracle tok m doc = .ok (s, j, i))
    (h2 : process_long_document oracle2 tok m doc = .ok (s2, j2, i2)) :
    s2 = s ∧
    (∀ (tables : List Str) (st : AggState),
      evalChunks oracle 0 (split_text tok m doc) =
        .ok (tables.map PyVal.dictWithTable) →
      aggTables tables = some st → s = final_scores st) := by
  have hchunks : evalChunks oracle 0 (split_text tok m doc) =
      evalChunks oracle2 0 (split_text tok m doc) :=
    evalChunks_congr oracle oracle2 (split_text tok m doc) 0
      (fun k hk => by simpa using hagree k hk)
  rcases process_ok_inv oracle tok m doc s j i h1 with
    ⟨crA, stA, hA1, hA2, hAs, _, _⟩
  rcases process_ok_inv oracle2 tok m doc s2 j2 i2 h2 with
    ⟨crB, stB, hB1, hB2, hBs, _, _⟩
  have hcrAB : crA = crB := by
    rw [hchunks] at hA1
    rw [hA1] at hB1
    injection hB1 with h5
  subst hcrAB
  have hstAB : stA = stB := by
    rw [hA2] at hB2
    injection hB2 with h5
  subst hstAB
  refine ⟨by rw [hAs, hBs], ?_⟩
  intro tables st htab hst
  have hcrT : crA = tables.map PyVal.dictWithTable := by
    rw [htab] at hA1
    injection hA1 with h5
    exact h5.symm
  subst hcrT
  have hA2b : aggTables tables = some stA := by
    rw [aggChunks_eq_aggFrom (E := E) tables ⟨[], [], []⟩] at hA2
    rcases ha : aggFrom ⟨[], [], []⟩ tables with _ | st2
    · rw [ha] at hA2
      exact Except.noConfusion hA2
    · rw [ha] at hA2
      have h7 : st2 = stA := by simpa using hA2
      rw [aggTables_eq, ha, h7]
  have hstT : stA = st := by
    rw [hst] at hA2b
    injection hA2b with h5
    exact h5.symm
  subst hstT
  exact hAs

/-- C9: a failed oracle call the pipeline reaches — every earlier call
having returned some reply, of any shape — propagates unmodified as the
pipeline's result; no partial mapping is returned. -/
theorem claim_C9_oracle_failure {E : Type} (oracle : Nat → Except E PyVal)
    (tok : Str → Nat) (m : Nat) (doc : Str) (k : Nat) (e : E)
    (hk : oracle k = .error e)
    (hpre : ∀ i, i < k → ∃ v, oracle i = .ok v)
    (hrange : k < (split_text tok m doc).length ∨
      ∃ tables st, evalChunks oracle 0 (split_text tok m doc) =
          .ok (tables.map PyVal.dictWithTable) ∧
        aggTables tables = some st ∧
        k < (split_text tok m doc).length +
          (final_justifications st).length + (final_indicators st).length) :
    process_long_document oracle tok m doc = .error (.oracle e) := by
  rcases hrange with hlt | ⟨tables, st, h1, h2, hklt⟩
  · apply process_of_evalChunks_error
    refine evalChunks_err oracle (split_text tok m doc) e 0 k hlt
      (fun i2 hi2 => by simpa using hpre i2 hi2) ?_
    rw [Nat.zero_add]
    exact hk
  · have hge : (split_text tok m doc).length ≤ k := by
      by_contra hlt2
      push_neg at hlt2
      rcases evalChunks_ok_calls oracle (split_text tok m doc) 0
        (tables.map PyVal.dictWithTable) h1 k hlt2 with ⟨v, hv⟩
      rw [Nat.zero_add, hk] at hv
      exact Except.noConfusion hv
    have h2c : aggChunks (E := E) ⟨[], [], []⟩
        (tables.map PyVal.dictWithTable) = .ok st := by
      rw [aggChunks_eq_aggFrom (E := E) tables ⟨[], [], []⟩]
      have h3 : aggFrom ⟨[], [], []⟩ tables = some st := h2
      rw [h3]
    by_cases hk1 : k < (split_text tok m doc).length +
        (final_justifications st).length
    · have herr := summarizeAll_err oracle (final_justifications st) e
        (split_text tok m doc).length (k - (split_text tok m doc).length)
        (by omega)
        (fun i2 hi2 => hpre ((split_text tok m doc).length + i2) (by omega))
        (by rw [show (split_text tok m doc).length +
          (k - (split_text tok m doc).length) = k from by omega]; exact hk)
      exact process_of_sum1_error oracle tok m doc
        (tables.map PyVal.dictWithTable) st _ h1 h2c herr
    · push_neg at hk1
      rcases summarizeAll_ok_of oracle (final_justifications st)
        (split_text tok m doc).length
        (fun i2 hi2 => hpre ((split_text tok m doc).length + i2)
          (by omega)) with ⟨fj2, hfj2⟩
      have herr2 := summarizeAll_err oracle (final_indicators st) e
        ((split_text tok m doc).length + (final_justifications st).length)
        (k - (split_text tok m doc).length - (final_justifications st).length)
        (by omega)
        (fun i2 hi2 => hpre ((split_text tok m doc).length +
          (final_justifications st).length + i2) (by omega))
        (by rw [show (split_text tok m doc).length +
          (final_justifications st).length +
          (k - (split_text tok m doc).length -
            (final_justifications st).length) = k from by omega]; exact hk)
      exact process_of_sum2_error oracle tok m doc
        (tables.map PyVal.dictWithTable) st fj2 _ h1 h2c hfj2 herr2

/-- Flattening respects permutation of the outer list. -/
theorem perm_flatten {l1 l2 : List (List Row)} (p : l1.Perm l2) :
    l1.flatten.Perm l2.flatten := by
  induction p with
  | nil => exact .refl _
  | cons x _ ih =>
    simp only [List.flatten_cons]
    exact ih.append_left x
  | swap x y l =>
    simp only [List.flatten_cons]
    rw [← List.append_assoc, ← List.append_assoc]
    exact List.perm_append_comm.append_right l.flatten
  | trans _ _ ih1 ih2 => exact ih1.trans ih2

/-- The score a criterion gets in `final_scores` is the Python max of the
scores of the rows that name it, over all parsed chunk tables in order. -/
theorem lookup?_final_scores_char (tables : List Str) (st : AggState)
    (rowss : List (List Row)) (h : Str)
    (h1 : aggTables tables = some st)
    (hrows : tables.map parseTable = rowss.map some) :
    lookup? h (final_scores st) =
      pyMaxList
        ((rowss.flatten.filter (fun r => r.hallmark = h)).map Row.score) := by
  rcases aggTables_char tables st h1 with ⟨rowss2, hmap2, hstdef⟩
  have hrw : rowss = rowss2 := map_some_inj (hrows.symm.trans hmap2)
  subst hrw
  have hscores : st.scores =
      rowss.flatten.foldl (fun d r => dAppend r.hallmark r.score d) [] := by
    rw [hstdef]
    exact foldl_addRow_scores rowss.flatten ⟨[], [], []⟩
  have hnd : (dKeys st.scores).Nodup := by
    rw [hscores]
    exact dKeys_foldl_dAppend_nodup Row.hallmark Row.score rowss.flatten []
      (by simp [dKeys])
  refine (lookup?_filterMap_pyMax st.scores h hnd).trans ?_
  rw [hscores]
  have := dGet_foldl_dAppend Row.hallmark Row.score rowss.flatten h []
  simp only [dGet] at this
  rw [this]
  simp

/-- C3: the score recorded for a criterion is the maximum of all scores the
parsed rows give it — it is one of those scores and bounds them all, every
criterion with at least one row gets a score, and the recorded score is
unchanged under any permutation of the chunk order. -/
theorem claim_C3_max_scores (tables tables2 : List Str) (st st2 : AggState)
    (rowss : List (List Row)) (h : Str)
    (hperm : tables.Perm tables2)
    (h1 : aggTables tables = some st)
    (h2 : aggTables tables2 = some st2)
    (hrows : tables.map parseTable = rowss.map some) :
    (∀ v, lookup? h (final_scores st) = some v →
      v ∈ (rowss.flatten.filter (fun r => r.hallmark = h)).map Row.score ∧
      ∀ x ∈ (rowss.flatten.filter (fun r => r.hallmark = h)).map Row.score,
        x ≤ v) ∧
    (rowss.flatten.filter (fun r => r.hallmark = h) ≠ [] →
      ∃ v, lookup? h (final_scores st) = some v) ∧
    lookup? h (final_scores st2) = lookup? h (final_scores st) := by
  have hlook := lookup?_final_scores_char tables st rowss h h1 hrows
  refine ⟨?_, ?_, ?_⟩
  · intro v hv
    rw [hlook] at hv
    exact ⟨pyMaxList_mem hv, pyMaxList_le hv⟩
  · intro hne
    rw [hlook]
    exact pyMaxList_isSome (by simpa using hne)
  · rcases aggTables_char tables2 st2 h2 with ⟨rowssB, hmapB, _⟩
    have hlookB := lookup?_final_scores_char tables2 st2 rowssB h h2 hmapB
    have hpm : (rowss.map some).Perm (rowssB.map some) := by
      rw [← hrows, ← hmapB]
      exact hperm.map parseTable
    have hrp : rowss.Perm rowssB := perm_of_map_some hpm
    have hfp : ((rowss.flatten.filter (fun r => r.hallmark = h)).map
          Row.score).Perm
        ((rowssB.flatten.filter (fun r => r.hallmark = h)).map Row.score) :=
      ((perm_flatten hrp).filter (fun r => r.hallmark = h)).map Row.score
    rw [hlook, hlookB]
    exact (pyMaxList_perm hfp).symm

/-- For a criterion some parsed row names, the joined justification and
indicator texts are the space-joins of the rows' values in chunk-then-row
order. -/
theorem lookup?_final_joins_char (tables : List Str) (st : AggState)
    (rowss : List (List Row)) (h : Str)
    (h1 : aggTables tables = some st)
    (hrows : tables.map parseTable = rowss.map some)
    (hne : rowss.flatten.filter (fun r => r.hallmark = h) ≠ []) :
    lookup? h (final_justifications st) =
      some (joinSep ' '
        ((rowss.flatten.filter (fun r => r.hallmark = h)).map
          Row.justification)) ∧
    lookup? h (final_indicators st) =
      some (joinSep ' '
        ((rowss.flatten.filter (fun r => r.hallmark = h)).map
          Row.indicators)) := by
  rcases aggTables_char tables st h1 with ⟨rowss2, hmap2, hstdef⟩
  have hrw : rowss = rowss2 := map_some_inj (hrows.symm.trans hmap2)
  subst hrw
  have hjusts : st.justifications =
      rowss.flatten.foldl
        (fun d r => dAppend r.hallmark r.justification d) [] := by
    rw [hstdef]
    exact foldl_addRow_justifications rowss.flatten ⟨[], [], []⟩
  have hinds : st.indicators =
      rowss.flatten.foldl
        (fun d r => dAppend r.hallmark r.indicators d) [] := by
    rw [hstdef]
    exact foldl_addRow_indicators rowss.flatten ⟨[], [], []⟩
  rcases List.exists_mem_of_ne_nil _ hne with ⟨r, hrmem⟩
  rcases List.mem_filter.mp hrmem with ⟨hrin, hrh⟩
  have hrh2 : r.hallmark = h := by simpa using hrh
  constructor
  · have hmemk : h ∈ dKeys st.justifications := by
      rw [hjusts]
      exact (mem_dKeys_foldl_dAppend Row.hallmark Row.justification
        rowss.flatten h []).mpr (Or.inr ⟨r, hrin, hrh2⟩)
    refine (lookup?_map_join (joinSep ' ') st.justifications h).trans ?_
    rw [if_pos hmemk, hjusts]
    have := dGet_foldl_dAppend Row.hallmark Row.justification rowss.flatten h []
    simp only [dGet] at this
    rw [this]
    simp
  · have hmemk : h ∈ dKeys st.indicators := by
      rw [hinds]
      exact (mem_dKeys_foldl_dAppend Row.hallmark Row.indicators
        rowss.flatten h []).mpr (Or.inr ⟨r, hrin, hrh2⟩)
    refine (lookup?_map_join (joinSep ' ') st.indicators h).trans ?_
    rw [if_pos hmemk, hinds]
    have := dGet_foldl_dAppend Row.hallmark Row.indicators rowss.flatten h []
    simp only [dGet] at this
    rw [this]
    simp

/-- Chunk table with the single row `| X | 1 | x | i |` (plus header). -/
def c4TableA : Str := "| H | S | J | I |\n| X | 1 | x | i |".toList

/-- Chunk table with the single row `| X | 1 | x x | i |` (plus header). -/
def c4TableB : Str := "| H | S | J | I |\n| X | 1 | x x | i |".toList

/-- Chunk table with the single row `| X | 1 | A | i |` (plus header). -/
def c4TableC : Str := "| H | S | J | I |\n| X | 1 | A | i |".toList

/-- Chunk table with the single row `| X | 1 | B | i |` (plus header). -/
def c4TableD : Str := "| H | S | J | I |\n| X | 1 | B | i |".toList

/-- Counterexample to C4's order-sensitivity clause: the two chunks
contribute the distinct justifications `x` and `x x` for criterion `X`,
yet reversing the chunk order leaves the joined string `x x x`
unchanged — so "reversing the chunk order changes the joined string
whenever two distinct values come from different chunks" fails. -/
theorem claim_C4_counterexample :
    (parseTable c4TableA).map (fun rs => rs.map Row.justification) =
      some ["x".toList] ∧
    (parseTable c4TableB).map (fun rs => rs.map Row.justification) =
      some ["x x".toList] ∧
    "x".toList ≠ "x x".toList ∧
    (aggTables [c4TableA, c4TableB]).map
        (fun st => lookup? "X".toList (final_justifications st)) =
      some (some "x x x".toList) ∧
    (aggTables [c4TableB, c4TableA]).map
        (fun st => lookup? "X".toList (final_justifications st)) =
      some (some "x x x".toList) := by
  refine ⟨by decide, by decide, by decide, by decide, by decide⟩

/-- C4 (amended): for every criterion some parsed row names, the joined
justification and joined indicators fields are exactly the space-joined
concatenation of the rows' values in chunk-then-row order, duplicates
included; reversing the chunk order can change the joined string — it does
on two chunks carrying the distinct single values `A` and `B` — but it
need not. -/
theorem claim_C4_joined_text :
    (∀ (tables : List Str) (st : AggState) (rowss : List (List Row))
      (h : Str), aggTables tables = some st →
      tables.map parseTable = rowss.map some →
      rowss.flatten.filter (fun r => r.hallmark = h) ≠ [] →
      lookup? h (final_justifications st) =
        some (joinSep ' '
          ((rowss.flatten.filter (fun r => r.hallmark = h)).map
            Row.justification)) ∧
      lookup? h (final_indicators st) =
        some (joinSep ' '
          ((rowss.flatten.filter (fun r => r.hallmark = h)).map
            Row.indicators))) ∧
    (aggTables [c4TableC, c4TableD]).map
        (fun st => lookup? "X".toList (final_justifications st)) ≠
      (aggTables [c4TableD, c4TableC]).map
        (fun st => lookup? "X".toList (final_justifications st)) := by
  refine ⟨?_, by decide⟩
  intro tables st rowss h h1 hrows hne
  exact lookup?_final_joins_char tables st rowss h h1 hrows hne

/-- Chunk table used by the C3 witness: criterion `X` scored 6. -/
def c3TableA : Str := "| H | S | J | I |\n| X | 6 | a | i1 |".toList

/-- Chunk table used by the C3 witness: criterion `X` scored 8. -/
def c3TableB : Str := "| H | S | J | I |\n| X | 8 | b | i2 |".toList

/-- Aggregation state of `[c3TableA, c3TableB]`. -/
def c3StAB : AggState :=
  ⟨[("X".toList, [6, 8])], [("X".toList, ["a".toList, "b".toList])],
    [("X".toList, ["i1".toList, "i2".toList])]⟩

/-- Aggregation state of `[c3TableB, c3TableA]`. -/
def c3StBA : AggState :=
  ⟨[("X".toList, [8, 6])], [("X".toList, ["b".toList, "a".toList])],
    [("X".toList, ["i2".toList, "i1".toList])]⟩

/-- Parsed rows of `[c3TableA, c3TableB]`. -/
def c3Rowss : List (List Row) :=
  [[⟨"X".toList, 6, "a".toList, "i1".toList⟩],
    [⟨"X".toList, 8, "b".toList, "i2".toList⟩]]

/-- Witness for C3: the recorded score for `X` over two concrete chunks is
the same after swapping the chunk order. -/
theorem claim_C3_max_scores_witness :
    lookup? "X".toList (final_scores c3StBA) =
      lookup? "X".toList (final_scores c3StAB) :=
  (claim_C3_max_scores [c3TableA, c3TableB] [c3TableB, c3TableA]
    c3StAB c3StBA c3Rowss "X".toList
    (List.Perm.swap c3TableB c3TableA []) (by decide) (by decide)
    (by decide)).2.2

/-- Aggregation state of `[c4TableC, c4TableD]`. -/
def c4StCD : AggState :=
  ⟨[("X".toList, [1, 1])], [("X".toList, ["A".toList, "B".toList])],
    [("X".toList, ["i".toList, "i".toList])]⟩

/-- Parsed rows of `[c4TableC, c4TableD]`. -/
def c4RowssCD : List (List Row) :=
  [[⟨"X".toList, 1, "A".toList, "i".toList⟩],
    [⟨"X".toList, 1, "B".toList, "i".toList⟩]]

/-- Witness for C4 (amended): on two concrete chunks the joined fields are
the space-joins `A B` and `i i` in chunk order. -/
theorem claim_C4_joined_text_witness :
    lookup? "X".toList (final_justifications c4StCD) = some "A B".toList ∧
    lookup? "X".toList (final_indicators c4StCD) = some "i i".toList := by
  have h := claim_C4_joined_text.1 [c4TableC, c4TableD] c4StCD c4RowssCD
    "X".toList (by decide) (by decide) (by decide)
  exact ⟨h.1.trans (by decide), h.2.trans (by decide)⟩

/-- Chunk table used by the C7 and C8 witnesses: criteria `X` and `Y`. -/
def c7Table : Str :=
  "| H | S | J | I |\n| X | 7 | jx | ix |\n| Y | 6 | jy | iy |".toList

/-- Oracle used by the C7 and C8 witnesses. -/
def c7Oracle : Nat → Except Nat PyVal
  | 0 => .ok (.dictWithTable c7Table)
  | _ => .ok (.other "sum".toList)

/-- The score mapping the C7 witness run returns. -/
def c7S : List (Str × ℚ) := [("X".toList, 7), ("Y".toList, 6)]

/-- The summarized justification mapping the C7 witness run returns. -/
def c7J : List (Str × Str) :=
  [("X".toList, "sum".toList), ("Y".toList, "sum".toList)]

/-- The summarized indicator mapping the C7 witness run returns. -/
def c7I : List (Str × Str) :=
  [("X".toList, "sum".toList), ("Y".toList, "sum".toList)]

/-- Parsed rows of `[c7Table]`. -/
def c7Rowss : List (List Row) :=
  [[⟨"X".toList, 7, "jx".toList, "ix".toList⟩,
    ⟨"Y".toList, 6, "jy".toList, "iy".toList⟩]]

/-- Witness for C7: on a concrete run, the unnamed criterion `Z` is absent
from all three returned mappings and the named criterion `X` is present in
the score mapping. -/
theorem claim_C7_absent_criteria_witness :
    (lookup? "Z".toList c7S = none ∧ lookup? "Z".toList c7J = none ∧
      lookup? "Z".toList c7I = none) ∧
    (∃ v, lookup? "X".toList c7S = some v) := by
  constructor
  · exact (claim_C7_absent_criteria c7Oracle (fun l : Str => l.length) 9 []
      c7S c7J c7I [c7Table] c7Rowss (by decide) (by decide) (by decide)
      "Z".toList).1 (by decide)
  · exact (claim_C7_absent_criteria c7Oracle (fun l : Str => l.length) 9 []
      c7S c7J c7I [c7Table] c7Rowss (by decide) (by decide) (by decide)
      "X".toList).2
      ⟨⟨"X".toList, 7, "jx".toList, "ix".toList⟩, by decide, rfl⟩

/-- Second oracle of the C8 witness: same chunk reply, different
summarization replies. -/
def c8OracleB : Nat → Except Nat PyVal
  | 0 => .ok (.dictWithTable c7Table)
  | _ => .ok (.other "other".toList)

/-- The summarized justification mapping the second C8 run returns. -/
def c8J : List (Str × Str) :=
  [("X".toList, "other".toList), ("Y".toList, "other".toList)]

/-- The summarized indicator mapping the second C8 run returns. -/
def c8I : List (Str × Str) :=
  [("X".toList, "other".toList), ("Y".toList, "other".toList)]

/-- Aggregation state of `[c7Table]`. -/
def c7StAgg : AggState :=
  ⟨[("X".toList, [7]), ("Y".toList, [6])],
    [("X".toList, ["jx".toList]), ("Y".toList, ["jy".toList])],
    [("X".toList, ["ix".toList]), ("Y".toList, ["iy".toList])]⟩

/-- Witness for C8: two concrete runs whose oracles differ only in the
summarization replies return the aggregated `final_scores` unchanged. -/
theorem claim_C8_scores_frame_witness : c7S = final_scores c7StAgg :=
  (claim_C8_scores_frame c7Oracle c8OracleB (fun l : Str => l.length) 9 []
    c7S c7S c7J c7I c8J c8I
    (fun k hk => by
      have h1 : (split_text (fun l : Str => l.length) 9 []).length = 1 := by
        decide
      rw [h1] at hk
      have h0 : k = 0 := by omega
      subst h0
      rfl)
    (by decide) (by decide)).2 [c7Table] c7StAgg (by decide) (by decide)

/-- Chunk table used by the C9 witness: a single criterion `X`. -/
def c9Table : Str := "| H | S | J | I |\n| X | 7 | j | i |".toList

/-- Oracle used by the C9 witness: the chunk call succeeds, the first
summarization call fails with error 42. -/
def c9Oracle : Nat → Except Nat PyVal
  | 0 => .ok (.dictWithTable c9Table)
  | _ => .error 42

/-- Aggregation state of `[c9Table]`. -/
def c9St : AggState :=
  ⟨[("X".toList, [7])], [("X".toList, ["j".toList])],
    [("X".toList, ["i".toList])]⟩

/-- Witness for C9: a failing first summarization call propagates as the
whole pipeline's error. -/
theorem claim_C9_oracle_failure_witness :
    process_long_document c9Oracle (fun l : Str => l.length) 9 [] =
      .error (.oracle 42) :=
  claim_C9_oracle_failure c9Oracle (fun l : Str => l.length) 9 [] 1 42 rfl
    (fun i hi => by
      have h0 : i = 0 := by omega
      subst h0
      exact ⟨.dictWithTable c9Table, rfl⟩)
    (Or.inr ⟨[c9Table], c9St, by decide, by decide, by decide⟩)

end DocAssistant
